import Mathlib

/-!
Verification of the `ceng.load` load-combination module.

The development shallowly embeds `src/ceng/load.py`:

* `getIdentifiers` embeds `_get_identifiers` (regex split on the structural
  operators, per-fragment multiplication checks, then the `ast.parse`
  well-formedness check).
* `tokenize` / `parseExpr` embed the relevant fragment of Python's
  expression grammar used by `ast.parse` and `eval` on combination strings:
  numbers, identifiers, `*`, `&`, `|` and parentheses with Python's
  precedence (`*` over `&` over `|`), all left associative.  Python keywords
  are excluded from the identifier token class: a combination string whose
  name tokens are keywords either fails `ast.parse` or fails during
  evaluation in the source, so the model errs toward rejection there.
* `PyVal` with `pyMul`/`pyAnd`/`pyOr` embeds the operator algebra of
  `_Factored`, `_GroupAnd`, `_GroupOr` and plain tuples, including Python's
  reflected-operand dispatch (`__rmul__`, `__rand__`, `__ror__`) and the
  builtin tuple behaviours that the classes inherit (sequence repetition
  for `int * tuple`, no `__and__`/`__or__` on plain tuples).
* `construct` embeds `Combination.__post_init__`: identifier extraction,
  evaluation of the string over the algebra, normalisation of the result to
  a sequence of groups, the matrix build via
  `_row_by_row_concatenation_of_array_seq` (`rowConcat`), and the evaluator
  synthesis step, which fails with a `SyntaxError` whenever the extracted
  identifier tuple has a duplicate (the generated `def` would declare a
  duplicate parameter).

Numeric values are modelled as exact rationals (`ℚ`); the claims under
study are structural and do not depend on floating-point rounding.
-/

namespace Ceng

/-! ## Characters and string helpers -/

/-- Whitespace as stripped by `str.strip` and skipped by the tokenizer
(ASCII scope). -/
def isWs (c : Char) : Bool := c = ' ' || c = '\t' || c = '\n' || c = '\r'

/-- The structural operator characters `_valid_operators = "&|()"` that
`_load_combination_re` splits on. -/
def isOpChar (c : Char) : Bool := c = '&' || c = '|' || c = '(' || c = ')'

/-- First character of a Python identifier (ASCII scope). -/
def idStart (c : Char) : Bool := c.isAlpha || c = '_'

/-- Continuation character of a Python identifier (ASCII scope). -/
def idCont (c : Char) : Bool := c.isAlphanum || c = '_'

/-- `str.strip()` on a list of characters. -/
def strip (l : List Char) : List Char :=
  ((l.dropWhile isWs).reverse.dropWhile isWs).reverse

/-- `re.split` on the structural operator characters: the pieces of the
string lying between (and around) occurrences of `&`, `|`, `(`, `)`.  The
separators themselves are dropped, exactly as `re.split` drops them. -/
def splitOnOps : List Char → List (List Char)
  | [] => [[]]
  | c :: cs =>
    if isOpChar c then [] :: splitOnOps cs
    else (splitOnOps cs).modifyHead (c :: ·)

/-- `re.split(r"\*", ...)`: the pieces of a fragment between `*` signs. -/
def splitOnStar : List Char → List (List Char)
  | [] => [[]]
  | c :: cs =>
    if c = '*' then [] :: splitOnStar cs
    else (splitOnStar cs).modifyHead (c :: ·)

/-- `s.replace('.', '1').isdecimal()`: every multiplication operand left of
the last `*` must pass this check (ASCII scope of `isdecimal`). -/
def isDecimalish (l : List Char) : Bool :=
  !l.isEmpty && (l.map (fun c => if c = '.' then '1' else c)).all Char.isDigit

/-- `str.isidentifier()` (ASCII scope; Python keywords also pass this
test, just as in the source). -/
def isIdentifier (l : List Char) : Bool :=
  match l with
  | [] => false
  | c :: cs => idStart c && cs.all idCont

/-! ## Error kinds

`exprErr` stands for `LoadCombinationExpressionError`; the remaining kinds
stand for the uncaught exceptions other stages of `Combination` construction
can raise: `AttributeError` (a non-group reaching the `.matrix` access),
`ValueError` (`np.hstack` on an empty sequence), and `SyntaxError` (the
synthesized evaluator source declaring a duplicate parameter name). -/

inductive CErr
  | exprErr
  | attrErr
  | valueErr
  | synErr
deriving DecidableEq, Repr

/-! ## Fragment checks of `_get_identifiers` -/

/-- The body of the fragment loop in `_get_identifiers`: split the fragment
on `*`, strip each piece; all pieces but the last must be numeric
(`isDecimalish`), and the last piece, when nonempty, must be an identifier,
which is then recorded.  An empty last piece is the parenthesized-RHS case
and records nothing. -/
def checkFrag (frag : List Char) : Except CErr (Option String) :=
  let parts := (splitOnStar frag).map strip
  let lhs := parts.dropLast
  let rhs := parts.getLastD []
  if lhs.all isDecimalish then
    if rhs.isEmpty then .ok none
    else if isIdentifier rhs then .ok (some rhs.asString)
    else .error .exprErr
  else .error .exprErr

/-- The fragments of a combination string: split on the structural
operators, strip, and drop empty pieces (`if s.strip()`), in order. -/
def fragmentsOf (s : List Char) : List (List Char) :=
  ((splitOnOps s).map strip).filter (fun f => !f.isEmpty)

/-- The fragment loop of `_get_identifiers`: process the fragments in order,
collecting recorded identifiers; the first failing fragment raises. -/
def idsOfFrags : List (List Char) → Except CErr (List String)
  | [] => .ok []
  | f :: fs => do
    let o ← checkFrag f
    let rest ← idsOfFrags fs
    .ok ((o.elim [] (fun i => [i])) ++ rest)

/-! ## Numbers and tokens -/

/-- A Python numeric literal as it occurs in combination strings: a
nonnegative `int` or a `float` (modelled as an exact rational).  Negative
literals cannot reach evaluation: a `-` sign fails the fragment checks of
`_get_identifiers`. -/
inductive PyNum
  | pint (n : ℕ)
  | pfloat (q : ℚ)
deriving DecidableEq, Repr

/-- Numeric value of a literal. -/
def PyNum.val : PyNum → ℚ
  | pint n => n
  | pfloat q => q

/-- Python multiplication of two numbers: `int * int` is an `int`,
anything involving a `float` is a `float`. -/
def PyNum.pymul : PyNum → PyNum → PyNum
  | pint a, pint b => pint (a * b)
  | a, b => pfloat (a.val * b.val)

/-- Tokens of the Python expression grammar fragment used by combination
strings. -/
inductive Tok
  | num (n : PyNum)
  | ident (s : String)
  | star
  | amp
  | bar
  | lpar
  | rpar
deriving DecidableEq, Repr

/-- The single-character operator tokens. -/
def charTok (c : Char) : Tok :=
  if c = '&' then .amp
  else if c = '|' then .bar
  else if c = '*' then .star
  else if c = '(' then .lpar
  else .rpar

/-- Python keywords, which are not name tokens.  (`True`/`False`/`None`
lex as constants in Python; combination strings containing them fail either
`ast.parse` or the algebra evaluation in the source, so the model folds
them into the rejected class as well.) -/
def pyKeywords : List String :=
  ["False", "None", "True", "and", "as", "assert", "async", "await",
   "break", "class", "continue", "def", "del", "elif", "else", "except",
   "finally", "for", "from", "global", "if", "import", "in", "is",
   "lambda", "nonlocal", "not", "or", "pass", "raise", "return", "try",
   "while", "with", "yield"]

/-- Value of a digit string. -/
def digitsVal (l : List Char) : ℕ :=
  l.foldl (fun a c => 10 * a + (c.toNat - 48)) 0

/-- Value of a float literal with integer part `ip` and fractional part
`fp` (either may be empty). -/
def fracVal (ip fp : List Char) : ℚ :=
  (digitsVal ip : ℚ) + (digitsVal fp : ℚ) / ((10 : ℚ) ^ fp.length)

/-- Longest digit run at the front of a string, and the rest. -/
def spanDigits (l : List Char) : List Char × List Char :=
  (l.takeWhile Char.isDigit, l.dropWhile Char.isDigit)

theorem length_dropWhile_le (p : α → Bool) (l : List α) :
    (l.dropWhile p).length ≤ l.length := by
  induction l with
  | nil => simp [List.dropWhile]
  | cons a l ih =>
    by_cases h : p a
    · simpa [List.dropWhile, h] using Nat.le_succ_of_le ih
    · simp [List.dropWhile, h]

/-- Tokenizer step function for the expression grammar fragment: skips
whitespace, produces single-character operator tokens, identifier tokens
(maximal `idCont` runs starting with `idStart`, keywords excluded) and
numeric tokens (`digits`, `digits.digits?`, `.digits`).  Returns `none` on
any other character: such strings are rejected, as the corresponding Python
source strings fail `_get_identifiers`'s checks or `ast.parse`.  The fuel
argument only bounds the recursion depth; every step consumes at least one
character, so `length + 1` fuel always suffices. -/
def tokenizeF : ℕ → List Char → Option (List Tok)
  | 0, _ => none
  | _ + 1, [] => some []
  | fuel + 1, c :: cs =>
    if isWs c then tokenizeF fuel cs
    else if isOpChar c || c = '*' then (tokenizeF fuel cs).map (charTok c :: ·)
    else if idStart c then
      if (c :: cs.takeWhile idCont).asString ∈ pyKeywords then none
      else (tokenizeF fuel (cs.dropWhile idCont)).map
        (Tok.ident (c :: cs.takeWhile idCont).asString :: ·)
    else if c.isDigit then
      if ((cs.dropWhile Char.isDigit).headD ' ') = '.' then
        (tokenizeF fuel ((cs.dropWhile Char.isDigit).tail.dropWhile Char.isDigit)).map
          (Tok.num (.pfloat (fracVal (c :: cs.takeWhile Char.isDigit)
            ((cs.dropWhile Char.isDigit).tail.takeWhile Char.isDigit))) :: ·)
      else (tokenizeF fuel (cs.dropWhile Char.isDigit)).map
        (Tok.num (.pint (digitsVal (c :: cs.takeWhile Char.isDigit))) :: ·)
    else if c = '.' then
      if (cs.takeWhile Char.isDigit).isEmpty then none
      else (tokenizeF fuel (cs.dropWhile Char.isDigit)).map
        (Tok.num (.pfloat (fracVal [] (cs.takeWhile Char.isDigit))) :: ·)
    else none

/-- The tokenizer, with enough fuel to process the whole string. -/
def tokenize (l : List Char) : Option (List Tok) := tokenizeF (l.length + 1) l

/-! ## Expression grammar

Python parses a combination string with precedence `*` over `&` over `|`,
all left associative; parentheses group. -/

/-- Abstract syntax of the expression fragment. -/
inductive Expr
  | num (n : PyNum)
  | evar (s : String)
  | mul (a b : Expr)
  | band (a b : Expr)
  | bor (a b : Expr)
deriving DecidableEq, Repr

mutual

/-- Atom: number, name, or parenthesized expression. -/
def parseAtom : ℕ → List Tok → Option (Expr × List Tok)
  | 0, _ => none
  | fuel + 1, ts =>
    match ts with
    | Tok.num n :: rest => some (.num n, rest)
    | Tok.ident s :: rest => some (.evar s, rest)
    | Tok.lpar :: rest =>
      match parseOr fuel rest with
      | some (e, Tok.rpar :: r2) => some (e, r2)
      | _ => none
    | _ => none

/-- Left-associative `*` chain. -/
def parseMul : ℕ → List Tok → Option (Expr × List Tok)
  | 0, _ => none
  | fuel + 1, ts =>
    match parseAtom fuel ts with
    | some (a, rest) => parseMulLoop fuel a rest
    | none => none

def parseMulLoop : ℕ → Expr → List Tok → Option (Expr × List Tok)
  | 0, _, _ => none
  | fuel + 1, acc, Tok.star :: rest =>
    match parseAtom fuel rest with
    | some (b, r2) => parseMulLoop fuel (.mul acc b) r2
    | none => none
  | _ + 1, acc, ts => some (acc, ts)

/-- Left-associative `&` chain over `*` chains. -/
def parseAnd : ℕ → List Tok → Option (Expr × List Tok)
  | 0, _ => none
  | fuel + 1, ts =>
    match parseMul fuel ts with
    | some (a, rest) => parseAndLoop fuel a rest
    | none => none

def parseAndLoop : ℕ → Expr → List Tok → Option (Expr × List Tok)
  | 0, _, _ => none
  | fuel + 1, acc, Tok.amp :: rest =>
    match parseMul fuel rest with
    | some (b, r2) => parseAndLoop fuel (.band acc b) r2
    | none => none
  | _ + 1, acc, ts => some (acc, ts)

/-- Left-associative `|` chain over `&` chains. -/
def parseOr : ℕ → List Tok → Option (Expr × List Tok)
  | 0, _ => none
  | fuel + 1, ts =>
    match parseAnd fuel ts with
    | some (a, rest) => parseOrLoop fuel a rest
    | none => none

def parseOrLoop : ℕ → Expr → List Tok → Option (Expr × List Tok)
  | 0, _, _ => none
  | fuel + 1, acc, Tok.bar :: rest =>
    match parseAnd fuel rest with
    | some (b, r2) => parseOrLoop fuel (.bor acc b) r2
    | none => none
  | _ + 1, acc, ts => some (acc, ts)

end

/-- The model of `ast.parse` / the parse step of `eval` on a combination
string: tokenize and require a full parse of a single expression.  The fuel
bound exceeds every possible recursion depth for the token list. -/
def pyParse (s : List Char) : Option Expr := do
  let toks ← tokenize s
  match parseOr (8 * toks.length + 8) toks with
  | some (e, []) => some e
  | _ => none

/-- `_get_identifiers`: run the fragment loop, then the `ast.parse` check;
either failure raises `LoadCombinationExpressionError`. -/
def getIdentifiers (s : List Char) : Except CErr (List String) := do
  let ids ← idsOfFrags (fragmentsOf s)
  if (pyParse s).isSome then pure ids else .error .exprErr

/-! ## The operator algebra

`_Factored`, `_GroupAnd`, `_GroupOr` and the plain tuples produced by
`__rand__`/sequence repetition, with Python's binary-operator dispatch:
try the left operand's slot, then the right operand's reflected slot, and
raise `TypeError` when both decline.  `_GroupAnd`/`_GroupOr` subclass
`tuple`, so they inherit `tuple`'s sequence repetition for multiplication
by an `int`; repetition of a group returns a *plain* tuple of its
`_Factored` members. -/

/-- A `_Factored` value: a load-type name with a numeric factor. -/
structure Member where
  load : String
  factor : ℚ
deriving DecidableEq, Repr

/-- Runtime values arising while evaluating a combination string. -/
inductive PyVal
  | pnum (n : PyNum)
  | factored (load : String) (factor : ℚ)
  | groupAnd (ms : List Member)
  | groupOr (ms : List Member)
  | ptup (es : List PyVal)
deriving Repr

/-- The members of a group, as plain `_Factored` values. -/
def membersToVals (ms : List Member) : List PyVal :=
  ms.map (fun m => .factored m.load m.factor)

/-- `a * b` on runtime values.  `none` is a raised `TypeError`, except for
the multiplication of two `_Factored` values: there the source builds a
nested `_Factored` whose factor is itself a `_Factored`; such a value can
only arise from a string that already fails `_get_identifiers` (the left
operand of the `*` would have to be a non-number fragment part), and every
construction containing it fails before a `Combination` is produced, so the
embedding folds that case into the failure outcome as well. -/
def pyMul : PyVal → PyVal → Option PyVal
  | .pnum a, .pnum b => some (.pnum (a.pymul b))
  | .pnum a, .factored l f => some (.factored l (f * a.val))
  | .pnum a, .groupOr ms =>
    some (.groupOr (ms.map (fun m => ⟨m.load, a.val * m.factor⟩)))
  | .pnum (.pint n), .groupAnd ms => some (.ptup ((List.replicate n (membersToVals ms)).flatten))
  | .pnum (.pfloat _), .groupAnd _ => none
  | .pnum (.pint n), .ptup es => some (.ptup ((List.replicate n es).flatten))
  | .pnum (.pfloat _), .ptup _ => none
  | .groupAnd ms, .pnum (.pint n) => some (.ptup ((List.replicate n (membersToVals ms)).flatten))
  | .groupOr ms, .pnum (.pint n) => some (.ptup ((List.replicate n (membersToVals ms)).flatten))
  | .ptup es, .pnum (.pint n) => some (.ptup ((List.replicate n es).flatten))
  | _, _ => none

/-- `a & b` on runtime values (`__and__` then `__rand__`, `TypeError` when
both decline).  Only `_GroupOr.__rand__` accepts non-`_Factored` operands:
it wraps a bare `_Factored` into a singleton `_GroupAnd` and chains groups
and tuples into a plain tuple — the `Combination` representation. -/
def pyAnd : PyVal → PyVal → Option PyVal
  | .pnum (.pint a), .pnum (.pint b) => some (.pnum (.pint (Nat.land a b)))
  | .factored l f, .factored l' f' => some (.groupAnd [⟨l, f⟩, ⟨l', f'⟩])
  | .groupAnd ms, .factored l f => some (.groupAnd (ms ++ [⟨l, f⟩]))
  | .factored l f, .groupOr ns => some (.ptup [.groupAnd [⟨l, f⟩], .groupOr ns])
  | .groupAnd ms, .groupOr ns => some (.ptup [.groupAnd ms, .groupOr ns])
  | .groupOr ms, .groupOr ns => some (.ptup [.groupOr ms, .groupOr ns])
  | .ptup es, .groupOr ns => some (.ptup (es ++ [.groupOr ns]))
  | _, _ => none

/-- `a | b` on runtime values (`__or__` then `__ror__`).  Only `_Factored`
and `_GroupOr` accept, and only a bare `_Factored` on the right. -/
def pyOr : PyVal → PyVal → Option PyVal
  | .pnum (.pint a), .pnum (.pint b) => some (.pnum (.pint (Nat.lor a b)))
  | .factored l f, .factored l' f' => some (.groupOr [⟨l, f⟩, ⟨l', f'⟩])
  | .groupOr ms, .factored l f => some (.groupOr (ms ++ [⟨l, f⟩]))
  | _, _ => none

/-- `eval(self.expr, ns)` with `ns = {k: _Factored(k) for k in ids}`: every
exception raised during evaluation (NameError for a missing binding,
TypeError from the operator dispatch) is caught by `_init_matrix` and
re-raised as `LoadCombinationExpressionError`. -/
def evalExpr (ids : List String) : Expr → Except CErr PyVal
  | .num n => .ok (.pnum n)
  | .evar s => if s ∈ ids then .ok (.factored s 1) else .error .exprErr
  | .mul a b => do
    let va ← evalExpr ids a
    let vb ← evalExpr ids b
    match pyMul va vb with
    | some v => .ok v
    | none => .error .exprErr
  | .band a b => do
    let va ← evalExpr ids a
    let vb ← evalExpr ids b
    match pyAnd va vb with
    | some v => .ok v
    | none => .error .exprErr
  | .bor a b => do
    let va ← evalExpr ids a
    let vb ← evalExpr ids b
    match pyOr va vb with
    | some v => .ok v
    | none => .error .exprErr

/-! ## Group matrices and the matrix compiler -/

/-- Diagonal matrix with the given diagonal (`np.diag`). -/
def diagOf (fs : List ℚ) : List (List ℚ) :=
  (List.range fs.length).map (fun i =>
    (List.range fs.length).map (fun j => if i = j then fs.getD j 0 else 0))

/-- `_Group.matrix`: a `_GroupAnd` yields one row of factors in member
order; a `_GroupOr` yields the diagonal matrix of factors.  Any other value
has no `matrix` attribute (`AttributeError`), hence `none`. -/
def groupMatrix : PyVal → Option (List (List ℚ))
  | .groupAnd ms => some [ms.map (·.factor)]
  | .groupOr ms => some (diagOf (ms.map (·.factor)))
  | _ => none

/-- `np.repeat(m, r, axis=0)`: each row repeated `r` times consecutively. -/
def nrepeat (r : ℕ) (m : List (List ℚ)) : List (List ℚ) :=
  m.flatMap (List.replicate r)

/-- `np.tile(m, (t, 1))`: the whole block stacked `t` times. -/
def ntile (t : ℕ) (m : List (List ℚ)) : List (List ℚ) :=
  (List.replicate t m).flatten

/-- Row counts `seq_rows` of the blocks. -/
def seqRows (seq : List (List (List ℚ))) : List ℕ := seq.map List.length

/-- `products[i] = seq_rows[i:].prod()`. -/
def tailProd (rs : List ℕ) (i : ℕ) : ℕ := ((rs.drop i).prod)

/-- The expanded block for group `i` in
`_row_by_row_concatenation_of_array_seq`:
`np.tile(np.repeat(arr, prod // arr_rows, axis=0), (rows // prod, 1))`. -/
def expandedBlock (seq : List (List (List ℚ))) (i : ℕ) : List (List ℚ) :=
  let arr := seq.getD i []
  let prod := tailProd (seqRows seq) i
  let rows := (seqRows seq).prod
  ntile (rows / prod) (nrepeat (prod / arr.length) arr)

/-- `_row_by_row_concatenation_of_array_seq`: horizontally stack the
expanded blocks.  Every expanded block has exactly `rows` rows, so
`np.hstack` concatenates the blocks' rows position-wise, which is what the
`List.range rows` map does. -/
def rowConcat (seq : List (List (List ℚ))) : List (List ℚ) :=
  let rows := (seqRows seq).prod
  (List.range rows).map (fun r =>
    ((List.range seq.length).map (fun i => (expandedBlock seq i).getD r [])).flatten)

/-! ## Combination construction -/

/-- `_init_matrix`'s normalisation of the evaluated expression to the
sequence whose elements get their `.matrix` taken: a bare `_Factored` is
wrapped in a singleton `_GroupAnd`; a `_GroupAnd` becomes a singleton
sequence; any other *tuple* is used as the sequence itself — note that a
bare `_GroupOr` is a tuple subclass and hence is iterated here, yielding
its `_Factored` members (which then fail the `.matrix` access); a number
raises `LoadCombinationExpressionError`. -/
def toGroupSeq : PyVal → Except CErr (List PyVal)
  | .factored l f => .ok [.groupAnd [⟨l, f⟩]]
  | .groupAnd ms => .ok [.groupAnd ms]
  | .groupOr ms => .ok (membersToVals ms)
  | .ptup es => .ok es
  | .pnum _ => .error .exprErr

/-- The list comprehension `[group.matrix for group in group_tup]`: the
first element without a `matrix` attribute raises `AttributeError`. -/
def matricesOf : List PyVal → Except CErr (List (List (List ℚ)))
  | [] => .ok []
  | g :: gs => do
    let m ← (match groupMatrix g with
      | some m => Except.ok m
      | none => Except.error CErr.attrErr)
    let rest ← matricesOf gs
    .ok (m :: rest)

/-- The matrix stage of `_init_matrix`: take each element's `.matrix`
(`AttributeError` on a non-group) and combine with
`_row_by_row_concatenation_of_array_seq` (`np.hstack` raises `ValueError`
on an empty sequence). -/
def matrixOfSeq (gs : List PyVal) : Except CErr (List (List ℚ)) := do
  let arrSeq ← matricesOf gs
  if arrSeq.isEmpty then .error .valueErr else .ok (rowConcat arrSeq)

/-- A successfully constructed `Combination`: its extracted identifier
tuple and its cached coefficient matrix. -/
structure Comb where
  ids : List String
  matrix : List (List ℚ)
deriving DecidableEq, Repr

/-- `Combination.__post_init__`: extract identifiers, evaluate the string
over the algebra, normalise, build the matrix, then synthesize the
evaluator.  The synthesis `exec`s a generated `def` taking one parameter
per extracted identifier, so a duplicated identifier raises `SyntaxError`
(duplicate argument in the function definition). -/
def construct (s : List Char) : Except CErr Comb := do
  let ids ← getIdentifiers s
  match pyParse s with
  | none => .error .exprErr
  | some e => do
    let v ← evalExpr ids e
    let gs ← toGroupSeq v
    let m ← matrixOfSeq gs
    if ids.Nodup then .ok ⟨ids, m⟩ else .error .synErr

/-! ## The synthesized evaluator

Each scenario row of the matrix is compiled into
`return f0*id0 + f1*id1 + ...` over `zip(factors, identifiers)` — `zip`
stops at the shorter of the two — and `_call_handler` stacks the row
results and returns the transpose (`.T`).  For scalar inputs the stack is
one-dimensional and `.T` is the identity; for one-dimensional array inputs
`.T` swaps the two axes.  `dotZip` is the value of one row function. -/

/-- `sum(f * v for f, v in zip(row, vals))`. -/
def dotZip (row : List ℚ) (vals : List ℚ) : ℚ :=
  ((row.zip vals).map (fun p => p.1 * p.2)).sum

/-- `_call_handler` on scalar inputs (one number per identifier, in
identifier order): the stacked row results; `.T` on a 1-D array is the
identity. -/
def callHandlerScalar (matrix : List (List ℚ)) (vals : List ℚ) : List ℚ :=
  matrix.map (fun row => dotZip row vals)

/-- `.T` on a rectangular 2-D array (`numpy` arrays are rectangular). -/
def transposeR (m : List (List ℚ)) : List (List ℚ) :=
  (List.range ((m.headD []).length)).map (fun j => m.map (fun row => row.getD j 0))

/-- One vectorized row function applied to equal-length 1-D array inputs:
elementwise `sum(f * v[j])`. -/
def rowFunArr (row : List ℚ) (vals : List (List ℚ)) : List ℚ :=
  (List.range ((vals.headD []).length)).map (fun j => dotZip row (vals.map (·.getD j 0)))

/-- `_call_handler` on 1-D array inputs (one equal-length array per
identifier): stack the vectorized row results (shape `M × k`), then `.T`
(shape `k × M` — the scenario axis ends up *last*). -/
def callHandlerArr (matrix : List (List ℚ)) (vals : List (List ℚ)) : List (List ℚ) :=
  transposeR (matrix.map (fun row => rowFunArr row vals))

/-- The evaluator attached to a constructed `Combination`, at scalar
inputs given positionally in identifier order. -/
def Comb.evalScalar (c : Comb) (vals : List ℚ) : List ℚ :=
  callHandlerScalar c.matrix vals

/-! ## Index helpers -/

theorem getD_range_map {α : Type} (f : ℕ → α) (n i : ℕ) (h : i < n) (d : α) :
    ((List.range n).map f).getD i d = f i := by
  rw [List.getD_eq_getElem?_getD, List.getElem?_map, List.getElem?_range h]
  rfl

theorem getD_map_of_lt {α β : Type} (f : α → β) (l : List α) (i : ℕ) (h : i < l.length)
    (d : β) (d' : α) : (l.map f).getD i d = f (l.getD i d') := by
  rw [List.getD_eq_getElem?_getD, List.getElem?_map, List.getD_eq_getElem?_getD,
    List.getElem?_eq_getElem h]
  rfl

theorem length_nrepeat (r : ℕ) (m : List (List ℚ)) :
    (nrepeat r m).length = m.length * r := by
  induction m with
  | nil => simp [nrepeat]
  | cons row rest ih =>
    simp only [nrepeat, List.flatMap_cons] at *
    simp [ih, Nat.succ_mul, Nat.add_comm]

theorem length_ntile (t : ℕ) (m : List (List ℚ)) :
    (ntile t m).length = t * m.length := by
  induction t with
  | zero => simp [ntile]
  | succ t ih =>
    simp only [ntile, List.replicate_succ, List.flatten_cons] at *
    simp [ih, Nat.succ_mul, Nat.add_comm]

theorem getD_replicate_of_lt {α : Type} (r k : ℕ) (a d : α) (h : k < r) :
    (List.replicate r a).getD k d = a := by
  induction r generalizing k with
  | zero => omega
  | succ r ih =>
    cases k with
    | zero => simp [List.replicate_succ]
    | succ k => simpa [List.replicate_succ] using ih k (by omega)

theorem getD_append_left {α : Type} (l₁ l₂ : List α) (k : ℕ) (d : α)
    (h : k < l₁.length) : (l₁ ++ l₂).getD k d = l₁.getD k d := by
  rw [List.getD_eq_getElem?_getD, List.getElem?_append_left h,
    ← List.getD_eq_getElem?_getD]

theorem getD_append_right {α : Type} (l₁ l₂ : List α) (k : ℕ) (d : α)
    (h : l₁.length ≤ k) : (l₁ ++ l₂).getD k d = l₂.getD (k - l₁.length) d := by
  rw [List.getD_eq_getElem?_getD, List.getElem?_append_right h,
    ← List.getD_eq_getElem?_getD]

theorem getD_nrepeat (r : ℕ) (m : List (List ℚ)) (k : ℕ) (hr : 0 < r)
    (hk : k < m.length * r) : (nrepeat r m).getD k [] = m.getD (k / r) [] := by
  induction m generalizing k with
  | nil => simp at hk
  | cons row rest ih =>
    simp only [nrepeat, List.flatMap_cons]
    by_cases h : k < r
    · rw [getD_append_left _ _ _ _ (by simpa using h),
        getD_replicate_of_lt _ _ _ _ h, Nat.div_eq_of_lt h, List.getD_cons_zero]
    · push_neg at h
      rw [getD_append_right _ _ _ _ (by simpa using h)]
      have hlen : (List.replicate r row).length = r := by simp
      rw [hlen]
      have hk' : k - r < rest.length * r := by
        simp only [List.length_cons] at hk
        have : (rest.length + 1) * r = rest.length * r + r := by ring
        omega
      have hih := ih _ hk'
      simp only [nrepeat] at hih
      rw [hih]
      rcases Nat.exists_eq_add_of_le h with ⟨d, rfl⟩
      rw [Nat.add_sub_cancel_left, Nat.add_div_left _ hr, List.getD_cons_succ]

theorem getD_ntile (t : ℕ) (m : List (List ℚ)) (k : ℕ)
    (hk : k < t * m.length) : (ntile t m).getD k [] = m.getD (k % m.length) [] := by
  induction t generalizing k with
  | zero => simp at hk
  | succ t ih =>
    simp only [ntile, List.replicate_succ, List.flatten_cons]
    by_cases h : k < m.length
    · rw [getD_append_left _ _ _ _ h, Nat.mod_eq_of_lt h]
    · push_neg at h
      rw [getD_append_right _ _ _ _ h]
      have hk' : k - m.length < t * m.length := by
        have : (t + 1) * m.length = t * m.length + m.length := by ring
        omega
      have hih := ih _ hk'
      simp only [ntile] at hih
      rw [hih]
      rcases Nat.exists_eq_add_of_le h with ⟨d, rfl⟩
      rw [Nat.add_sub_cancel_left, Nat.add_mod_left]

/-! ## The matrix compiler: row enumeration order (claim C2) -/

theorem tailProd_cons (rs : List ℕ) (i : ℕ) (hi : i < rs.length) :
    tailProd rs i = rs.getD i 0 * tailProd rs (i + 1) := by
  unfold tailProd
  rw [List.drop_eq_getElem_cons hi, List.prod_cons, List.getD_eq_getElem?_getD,
    List.getElem?_eq_getElem hi]
  rfl

theorem prod_pos_of_mem {rs : List ℕ} (h : 0 < rs.prod) {x : ℕ} (hx : x ∈ rs) : 0 < x := by
  rcases Nat.eq_zero_or_pos x with h0 | hpos
  · subst h0
    rw [List.prod_eq_zero hx] at h
    omega
  · exact hpos

theorem prod_factor (rs : List ℕ) (i : ℕ) (hi : i < rs.length) :
    rs.prod = (rs.take i).prod * tailProd rs i := by
  rw [← List.prod_take_mul_prod_drop rs i]
  rfl

/-- Modelled from the spec's words for claim C2 (the repeat/tile counts as
the claim states them): the block for group `i` is obtained by repeating
each row `M / (rows_i × suffix_product_i)` times and tiling the repeated
block `suffix_product_i` times. -/
def specC2Block (seq : List (List (List ℚ))) (i : ℕ) : List (List ℚ) :=
  let arr := seq.getD i []
  let rows := (seqRows seq).prod
  let suffix := tailProd (seqRows seq) (i + 1)
  ntile suffix (nrepeat (rows / (arr.length * suffix)) arr)

/-- Counterexample to claim C2: for two blocks `[[1],[2]]` and `[[3],[4]]`
(row counts 2 and 2, so `M = 4`), the code expands block 0 by repeating
each row `suffix_product_0 = 2` times and tiling once, giving
`[[1],[1],[2],[2]]`, whereas the claim's construction (repeat
`M / (rows_0 × suffix_product_0) = 1` time, tile `suffix_product_0 = 2`
times) gives `[[1],[2],[1],[2]]`. -/
theorem c2_counterexample :
    expandedBlock [[[1], [2]], [[3], [4]]] 0 = [[1], [1], [2], [2]] ∧
    specC2Block [[[1], [2]], [[3], [4]]] 0 = [[1], [2], [1], [2]] ∧
    expandedBlock [[[1], [2]], [[3], [4]]] 0 ≠ specC2Block [[[1], [2]], [[3], [4]]] 0 := by
  refine ⟨by decide, by decide, by decide⟩

/-- Claim C2, amended: in `_row_by_row_concatenation_of_array_seq` the
expanded block for group `i` repeats each of its rows `suffix_product_i`
times consecutively and tiles that repeated block
`M / (rows_i × suffix_product_i)` times (the converse of the claim's
formula); consequently row `r` of group `i`'s expanded block is source row
`(r / suffix_product_i) mod rows_i`, so later groups do vary fastest, in
nested-loop enumeration order.  Stated as: every expanded block has `M`
rows, and its row `r` is the group's row `(r / suffix_product_i) % rows_i`. -/
theorem c2_expandedBlock_amended (seq : List (List (List ℚ))) (i r : ℕ)
    (hi : i < seq.length) (hr : r < (seqRows seq).prod) :
    (expandedBlock seq i).length = (seqRows seq).prod ∧
    (expandedBlock seq i).getD r [] =
      (seq.getD i []).getD
        ((r / tailProd (seqRows seq) (i + 1)) % (seq.getD i []).length) [] := by
  have hlen : (seqRows seq).length = seq.length := by simp [seqRows]
  have hi' : i < (seqRows seq).length := by omega
  have hn : (seqRows seq).getD i 0 = (seq.getD i []).length := by
    unfold seqRows
    exact getD_map_of_lt _ _ _ hi _ _
  set rs := seqRows seq with hrs
  set arr := seq.getD i [] with harr
  set n := arr.length with hnn
  set suf := tailProd rs (i + 1) with hsuf
  have hprod : tailProd rs i = n * suf := by
    rw [tailProd_cons rs i hi', hn]
  have hMpos : 0 < rs.prod := Nat.pos_of_ne_zero (by omega)
  have hnpos : 0 < n := by
    have : rs.getD i 0 ∈ rs := by
      rw [List.getD_eq_getElem?_getD, List.getElem?_eq_getElem hi']
      exact List.getElem_mem hi'
    have := prod_pos_of_mem hMpos this
    omega
  have hsufpos : 0 < suf := by
    rcases Nat.eq_zero_or_pos suf with h0 | h
    · exfalso
      have := prod_factor rs i hi'
      rw [hprod, h0] at this
      omega
    · exact h
  have hM : rs.prod = (rs.take i).prod * (n * suf) := by
    rw [← hprod]
    exact prod_factor rs i hi'
  have hdiv1 : n * suf / n = suf := Nat.mul_div_cancel_left _ hnpos
  have hdiv2 : rs.prod / (n * suf) = (rs.take i).prod :=
    hM ▸ Nat.mul_div_cancel _ (by positivity)
  have hrep_len : (nrepeat suf arr).length = n * suf := by
    rw [length_nrepeat]
  constructor
  · show (ntile (rs.prod / tailProd rs i) (nrepeat (tailProd rs i / arr.length) arr)).length
        = rs.prod
    rw [hprod, ← hnn, hdiv1, hdiv2, length_ntile, hrep_len, ← hM]
  · show (ntile (rs.prod / tailProd rs i) (nrepeat (tailProd rs i / arr.length) arr)).getD r []
        = arr.getD ((r / suf) % arr.length) []
    rw [hprod, ← hnn, hdiv1, hdiv2]
    rw [getD_ntile _ _ _ (by rw [hrep_len, ← hM]; exact hr)]
    rw [hrep_len]
    have hmod_lt : r % (n * suf) < arr.length * suf := by
      rw [← hnn]
      exact Nat.mod_lt _ (by positivity)
    rw [getD_nrepeat _ _ _ hsufpos hmod_lt]
    congr 1
    rw [Nat.mul_comm n suf, Nat.mod_mul_right_div_self]

/-- Witness for `c2_expandedBlock_amended` at the docstring's example
(blocks of 3 and 2 rows). -/
theorem c2_expandedBlock_amended_witness :
    (0 : ℕ) < 2 ∧ (3 : ℕ) < 6 ∧
    (expandedBlock [[[1], [2], [3]], [[4], [5]]] 0).length = 6 ∧
    (expandedBlock [[[1], [2], [3]], [[4], [5]]] 0).getD 3 [] = [2] := by
  have h := c2_expandedBlock_amended [[[1], [2], [3]], [[4], [5]]] 0 3
    (by decide) (by decide)
  refine ⟨by decide, by decide, ?_, ?_⟩
  · simpa using h.1
  · have h2 := h.2
    simpa using h2

/-! ## Group matrices (claim C5) -/

/-- Claim C5: a `_GroupAnd`'s matrix is a single row holding each member's
factor in member order; a `_GroupOr`'s matrix is the members×members
diagonal matrix with member `i`'s factor at `(i, i)` and zero elsewhere. -/
theorem c5_group_matrix (ms : List Member) (i j : ℕ)
    (hi : i < ms.length) (hj : j < ms.length) :
    ((groupMatrix (PyVal.groupAnd ms)).getD []).length = 1 ∧
    (((groupMatrix (PyVal.groupAnd ms)).getD []).getD 0 []).length = ms.length ∧
    (((groupMatrix (PyVal.groupAnd ms)).getD []).getD 0 []).getD j 0 =
      (ms.getD j ⟨"", 0⟩).factor ∧
    ((groupMatrix (PyVal.groupOr ms)).getD []).length = ms.length ∧
    (((groupMatrix (PyVal.groupOr ms)).getD []).getD i []).length = ms.length ∧
    (((groupMatrix (PyVal.groupOr ms)).getD []).getD i []).getD j 0 =
      (if i = j then (ms.getD i ⟨"", 0⟩).factor else 0) := by
  refine ⟨rfl, by simp [groupMatrix], ?_, by simp [groupMatrix, diagOf], ?_, ?_⟩
  · show ((ms.map (·.factor)).getD j 0) = (ms.getD j ⟨"", 0⟩).factor
    exact getD_map_of_lt _ _ _ hj _ _
  · show ((diagOf (ms.map (·.factor))).getD i []).length = ms.length
    unfold diagOf
    rw [getD_range_map _ _ _ (by simpa using hi)]
    simp
  · show ((diagOf (ms.map (·.factor))).getD i []).getD j 0 =
      if i = j then (ms.getD i ⟨"", 0⟩).factor else 0
    unfold diagOf
    rw [getD_range_map _ _ _ (by simpa using hi),
      getD_range_map _ _ _ (by simpa using hj)]
    by_cases h : i = j
    · subst h
      simp only [if_pos rfl]
      exact getD_map_of_lt _ _ _ hi _ _
    · simp [h]

/-- Witness for `c5_group_matrix` at a concrete two-member group. -/
theorem c5_group_matrix_witness :
    (0 : ℕ) < 2 ∧ (1 : ℕ) < 2 ∧
    (((groupMatrix (PyVal.groupOr [⟨"S", 2⟩, ⟨"W", 3⟩])).getD []).getD 0 []).getD 1 0 = 0 := by
  have h := c5_group_matrix [⟨"S", 2⟩, ⟨"W", 3⟩] 0 1 (by decide) (by decide)
  exact ⟨by decide, by decide, by simpa using h.2.2.2.2.2⟩

/-! ## Composition of groups under `&` (claim C7) -/

/-- Counterexample to claim C7: `DisjunctiveGroup & ConjunctiveGroup` does
*not* succeed — `_GroupOr.__and__` returns `NotImplemented` and
`_GroupAnd.__rand__` returns `NotImplemented`, so Python raises
`TypeError`. -/
theorem c7_counterexample :
    pyAnd (PyVal.groupOr [⟨"A", 1⟩, ⟨"B", 1⟩]) (PyVal.groupAnd [⟨"C", 1⟩, ⟨"D", 1⟩]) =
      none := rfl

/-- Claim C7, amended: for a `DisjunctiveGroup` left operand, `g & h`
succeeds exactly when `h` is itself a `DisjunctiveGroup` (via
`_GroupOr.__rand__`), yielding the two groups chained as a tuple — the
`Combination` representation; when `h` is a `ConjunctiveGroup`, both
operand slots decline and the operation raises `TypeError`. -/
theorem c7_group_and_amended (ms ns : List Member) :
    pyAnd (PyVal.groupOr ms) (PyVal.groupOr ns) =
      some (PyVal.ptup [PyVal.groupOr ms, PyVal.groupOr ns]) ∧
    pyAnd (PyVal.groupOr ms) (PyVal.groupAnd ns) = none := ⟨rfl, rfl⟩

/-! ## The synthesized evaluator and the scenario axis (claim C1) -/

theorem getD_mem {α : Type} (l : List α) (i : ℕ) (d : α) (h : i < l.length) :
    l.getD i d ∈ l := by
  rw [List.getD_eq_getElem?_getD, List.getElem?_eq_getElem h]
  exact List.getElem_mem h

theorem headD_eq_getD {α : Type} (l : List α) (d : α) : l.headD d = l.getD 0 d := by
  cases l <;> rfl

theorem dotZip_eq_sum (row vals : List ℚ) (N : ℕ) (h1 : row.length = N)
    (h2 : vals.length = N) :
    dotZip row vals = ∑ n ∈ Finset.range N, row.getD n 0 * vals.getD n 0 := by
  induction N generalizing row vals with
  | zero =>
    rw [List.length_eq_zero] at h1 h2
    subst h1; subst h2
    simp [dotZip]
  | succ N ih =>
    rcases row with _ | ⟨r, rs⟩
    · simp at h1
    rcases vals with _ | ⟨v, vs⟩
    · simp at h2
    simp only [List.length_cons, Nat.succ_inj] at h1 h2
    have : dotZip (r :: rs) (v :: vs) = r * v + dotZip rs vs := by
      simp [dotZip, List.zip_cons_cons]
    rw [this, Finset.sum_range_succ' (fun n => (r :: rs).getD n 0 * (v :: vs).getD n 0) N]
    simp only [List.getD_cons_succ, List.getD_cons_zero]
    rw [ih rs vs h1 h2]
    ring

theorem getD_transposeR (m : List (List ℚ)) (j s : ℕ)
    (hj : j < (m.headD []).length) (hs : s < m.length) :
    ((transposeR m).getD j []).getD s 0 = (m.getD s []).getD j 0 := by
  unfold transposeR
  rw [getD_range_map _ _ _ hj]
  exact getD_map_of_lt _ _ _ hs _ _

/-- Counterexample to claim C1: for the 2×1 matrix `[[1],[2]]` and the
single identifier bound to the 1-D array `[10, 1]`, the claim's formula
(scenario axis first) gives `[[10, 1], [20, 2]]`, but `_call_handler`
stacks the row results and transposes, returning `[[10, 20], [1, 2]]` —
the scenario axis is the *last* axis for array inputs. -/
theorem c1_counterexample :
    callHandlerArr [[1], [2]] [[10, 1]] = [[10, 20], [1, 2]] ∧
    callHandlerArr [[1], [2]] [[10, 1]] ≠ [[10, 1], [20, 2]] := by
  constructor
  · norm_num [callHandlerArr, transposeR, rowFunArr, dotZip, List.range_succ]
  · norm_num [callHandlerArr, transposeR, rowFunArr, dotZip, List.range_succ]

/-- Claim C1, amended: with an M×N matrix and one value per identifier, the
evaluator computes `result = Σ_n matrix[s][n] * values[id_n]` per scenario
`s`; for scalar inputs the result is the 1-D array of the `M` scenario
values (scenario axis is axis 0), while for 1-D array inputs of common
length `k` the stacked `M × k` scenario results are transposed, so entry
`[j][s]` — scenario axis *last*, not axis 0 — holds
`Σ_n matrix[s][n] * values[id_n][j]`. -/
theorem c1_call_handler_amended (matrix : List (List ℚ)) (vals : List (List ℚ))
    (svals : List ℚ) (M N k j s : ℕ)
    (hM : matrix.length = M) (hrect : ∀ row ∈ matrix, row.length = N)
    (hvals : vals.length = N) (hvrect : ∀ v ∈ vals, v.length = k)
    (hsv : svals.length = N) (hN : 0 < N) (hj : j < k) (hs : s < M) :
    ((callHandlerArr matrix vals).getD j []).getD s 0 =
      ∑ n ∈ Finset.range N, (matrix.getD s []).getD n 0 * (vals.getD n []).getD j 0 ∧
    (callHandlerScalar matrix svals).getD s 0 =
      ∑ n ∈ Finset.range N, (matrix.getD s []).getD n 0 * svals.getD n 0 := by
  have hsM : s < matrix.length := by omega
  have hrowlen : (matrix.getD s []).length = N := hrect _ (getD_mem _ _ _ hsM)
  have hvals_head : (vals.headD []).length = k := by
    rw [headD_eq_getD]
    exact hvrect _ (getD_mem _ _ _ (by omega))
  constructor
  · unfold callHandlerArr
    have hm2head : ((matrix.map (fun row => rowFunArr row vals)).headD []).length = k := by
      rw [headD_eq_getD, getD_map_of_lt _ _ _ (by omega) _ ([] : List ℚ)]
      unfold rowFunArr
      rw [List.length_map, List.length_range, hvals_head]
    rw [getD_transposeR _ _ _ (by omega) (by simpa using hsM)]
    rw [getD_map_of_lt _ _ _ hsM _ ([] : List ℚ)]
    unfold rowFunArr
    rw [getD_range_map _ _ _ (by omega)]
    rw [dotZip_eq_sum _ _ N hrowlen (by simpa using hvals)]
    refine Finset.sum_congr rfl (fun n hn => ?_)
    rw [Finset.mem_range] at hn
    rw [getD_map_of_lt _ _ _ (by omega) _ ([] : List ℚ)]
  · unfold callHandlerScalar
    rw [getD_map_of_lt _ _ _ hsM _ ([] : List ℚ)]
    exact dotZip_eq_sum _ _ N hrowlen hsv

/-- Witness for `c1_call_handler_amended` at a concrete 2×2 matrix. -/
theorem c1_call_handler_amended_witness :
    ((callHandlerArr [[1, 2], [3, 4]] [[5], [6]]).getD 0 []).getD 1 0 =
      ∑ n ∈ Finset.range 2, (([[1, 2], [3, 4]] : List (List ℚ)).getD 1 []).getD n 0 *
        (([[5], [6]] : List (List ℚ)).getD n []).getD 0 0 ∧
    (callHandlerScalar [[1, 2], [3, 4]] [9, 10]).getD 1 0 =
      ∑ n ∈ Finset.range 2, (([[1, 2], [3, 4]] : List (List ℚ)).getD 1 []).getD n 0 *
        (([9, 10] : List ℚ).getD n 0) :=
  c1_call_handler_amended [[1, 2], [3, 4]] [[5], [6]] [9, 10] 2 2 1 0 1
    (by decide) (by decide) (by decide) (by decide) (by decide)
    (by decide) (by decide) (by decide)

/-! ## Algebra rejections and their surfacing (claim C8) -/

/-- Whether an `Except` computation succeeded. -/
def isOkE {ε α : Type} : Except ε α → Bool
  | .ok _ => true
  | .error _ => false

instance instDecEqExcept {ε α : Type} [DecidableEq ε] [DecidableEq α] :
    DecidableEq (Except ε α) := fun x y =>
  match x, y with
  | .ok a, .ok b =>
    if h : a = b then .isTrue (by rw [h]) else .isFalse (fun hh => h (by cases hh; rfl))
  | .error a, .error b =>
    if h : a = b then .isTrue (by rw [h]) else .isFalse (fun hh => h (by cases hh; rfl))
  | .ok _, .error _ => .isFalse (fun hh => by cases hh)
  | .error _, .ok _ => .isFalse (fun hh => by cases hh)

theorem evalExpr_error_kind (ids : List String) (e : Expr) (err : CErr)
    (h : evalExpr ids e = .error err) : err = .exprErr := by
  induction e with
  | num n => simp [evalExpr] at h
  | evar s =>
    by_cases hm : s ∈ ids
    · simp [evalExpr, hm] at h
    · rw [evalExpr, if_neg hm] at h
      cases h
      rfl
  | mul a b iha ihb =>
    rcases ha : evalExpr ids a with e1 | va
    · rw [evalExpr, ha] at h
      simp only [Bind.bind, Except.bind] at h
      exact iha (by rw [ha, h])
    · rcases hb : evalExpr ids b with e2 | vb
      · rw [evalExpr, ha, hb] at h
        simp only [Bind.bind, Except.bind] at h
        exact ihb (by rw [hb, h])
      · rw [evalExpr, ha, hb] at h
        simp only [Bind.bind, Except.bind] at h
        rcases hmul : pyMul va vb with _ | v <;> rw [hmul] at h <;> simp at h
        first
        | exact h.symm
        | exact h
  | band a b iha ihb =>
    rcases ha : evalExpr ids a with e1 | va
    · rw [evalExpr, ha] at h
      simp only [Bind.bind, Except.bind] at h
      exact iha (by rw [ha, h])
    · rcases hb : evalExpr ids b with e2 | vb
      · rw [evalExpr, ha, hb] at h
        simp only [Bind.bind, Except.bind] at h
        exact ihb (by rw [hb, h])
      · rw [evalExpr, ha, hb] at h
        simp only [Bind.bind, Except.bind] at h
        rcases hop : pyAnd va vb with _ | v <;> rw [hop] at h <;> simp at h
        first
        | exact h.symm
        | exact h
  | bor a b iha ihb =>
    rcases ha : evalExpr ids a with e1 | va
    · rw [evalExpr, ha] at h
      simp only [Bind.bind, Except.bind] at h
      exact iha (by rw [ha, h])
    · rcases hb : evalExpr ids b with e2 | vb
      · rw [evalExpr, ha, hb] at h
        simp only [Bind.bind, Except.bind] at h
        exact ihb (by rw [hb, h])
      · rw [evalExpr, ha, hb] at h
        simp only [Bind.bind, Except.bind] at h
        rcases hop : pyOr va vb with _ | v <;> rw [hop] at h <;> simp at h
        first
        | exact h.symm
        | exact h

/-- Counterexample to claim C8: two operator applications the composition
algebra does not enumerate that nevertheless succeed in the source —
a bare `_Factored` AND-extending a `_GroupOr` on its left (handled by
`_GroupOr.__rand__`, which wraps the term in a singleton `_GroupAnd`), and
an `int` multiplying a `_GroupAnd` (the inherited `tuple` sequence
repetition, yielding a plain tuple of the members). -/
theorem c8_counterexample :
    pyAnd (PyVal.factored "D" 1) (PyVal.groupOr [⟨"S", 1⟩, ⟨"L", 1⟩]) =
      some (PyVal.ptup [PyVal.groupAnd [⟨"D", 1⟩], PyVal.groupOr [⟨"S", 1⟩, ⟨"L", 1⟩]]) ∧
    pyMul (PyVal.pnum (PyNum.pint 2)) (PyVal.groupAnd [⟨"D", 1⟩]) =
      some (PyVal.ptup [PyVal.factored "D" 1, PyVal.factored "D" 1]) := ⟨rfl, rfl⟩

/-- Claim C8, amended: operator applications outside the enumerated cases
are rejected as `TypeError`s — e.g. a `float` times a `_GroupAnd`, a
`_GroupOr` AND-extended on its *right* by a bare term, or `|` on a
`_GroupAnd` — except that a bare `ScaledTerm` AND-composes on the left of a
`DisjunctiveGroup` (singleton-wrapped by `__rand__`) and an `int` times a
group or tuple performs sequence repetition; and every rejection raised
while evaluating a combination string surfaces as
`LoadCombinationExpressionError` (the expression-error kind) at
construction time. -/
theorem c8_rejection_amended (s : List Char) (ids : List String) (e : Expr)
    (h1 : getIdentifiers s = .ok ids) (h2 : pyParse s = some e)
    (h3 : isOkE (evalExpr ids e) = false) :
    construct s = .error .exprErr ∧
    (∀ ms q, pyMul (PyVal.pnum (PyNum.pfloat q)) (PyVal.groupAnd ms) = none) ∧
    (∀ ms l f, pyAnd (PyVal.groupOr ms) (PyVal.factored l f) = none) ∧
    (∀ ms ns, pyOr (PyVal.groupAnd ms) (PyVal.groupOr ns) = none) ∧
    (∀ ids' e' err, evalExpr ids' e' = .error err → err = CErr.exprErr) := by
  refine ⟨?_, fun ms q => rfl, fun ms l f => rfl, fun ms ns => rfl,
    fun ids' e' err h => evalExpr_error_kind ids' e' err h⟩
  rcases hev : evalExpr ids e with err | v
  · have hkind := evalExpr_error_kind ids e err hev
    subst hkind
    simp only [construct, h1, Bind.bind, Except.bind, h2, hev]
  · rw [hev] at h3
    simp [isOkE] at h3

/-- Witness for `c8_rejection_amended` at `"(A|B) & 2*X"`: the evaluation
reaches `_GroupOr & _Factored`, which both operand slots decline. -/
theorem c8_rejection_amended_witness :
    getIdentifiers "(A|B) & 2*X".toList = .ok ["A", "B", "X"] ∧
    construct "(A|B) & 2*X".toList = .error .exprErr := by
  refine ⟨by decide, ?_⟩
  exact (c8_rejection_amended "(A|B) & 2*X".toList ["A", "B", "X"]
    (Expr.band (Expr.bor (.evar "A") (.evar "B"))
      (Expr.mul (.num (.pint 2)) (.evar "X")))
    (by decide) (by decide) (by decide)).1

/-! ## Duplicate identifiers abort construction (claim C10) -/

/-- Claim C10: whenever the extracted identifier tuple contains a repeated
name, `Combination` construction fails with an error: if every earlier
stage succeeds, the synthesized evaluator source declares one parameter per
extracted occurrence and the duplicate parameter name raises
`SyntaxError`; an earlier stage may also fail, but construction never
succeeds.  No `Combination` (matrix or evaluator) is produced. -/
theorem c10_duplicate_identifier_fails (s : List Char) (ids : List String)
    (h1 : getIdentifiers s = .ok ids) (hdup : ¬ ids.Nodup) :
    ∃ err, construct s = .error err := by
  rcases hp : pyParse s with _ | e
  · exact ⟨.exprErr, by simp only [construct, h1, Bind.bind, Except.bind, hp]⟩
  · rcases hev : evalExpr ids e with err | v
    · exact ⟨err, by simp only [construct, h1, Bind.bind, Except.bind, hp, hev]⟩
    · rcases hgs : toGroupSeq v with err | gs
      · exact ⟨err, by simp only [construct, h1, Bind.bind, Except.bind, hp, hev, hgs]⟩
      · rcases hm : matrixOfSeq gs with err | m
        · exact ⟨err, by simp only [construct, h1, Bind.bind, Except.bind, hp, hev, hgs, hm]⟩
        · refine ⟨.synErr, ?_⟩
          simp only [construct, h1, Bind.bind, Except.bind, hp, hev, hgs, hm]
          rw [if_neg hdup]

/-- Witness for `c10_duplicate_identifier_fails` at `"D & D"`: extraction
keeps both occurrences and construction fails (concretely, with the
duplicate-parameter `SyntaxError` of the evaluator synthesis). -/
theorem c10_duplicate_identifier_fails_witness :
    getIdentifiers "D & D".toList = .ok ["D", "D"] ∧
    (∃ err, construct "D & D".toList = .error err) ∧
    construct "D & D".toList = .error .synErr := by
  refine ⟨by decide, ?_, by decide⟩
  exact c10_duplicate_identifier_fails "D & D".toList ["D", "D"] (by decide) (by decide)

/-! ## Matrix shape (claim C3) -/

/-- Row count of a group's coefficient matrix: 1 for a conjunctive group,
the member count for a disjunctive group (0 for non-groups, which never
reach the matrix stage). -/
def groupRowCount : PyVal → ℕ
  | .groupAnd _ => 1
  | .groupOr ms => ms.length
  | _ => 0

/-- Column (member) count of a group's coefficient matrix. -/
def groupMemberCount : PyVal → ℕ
  | .groupAnd ms => ms.length
  | .groupOr ms => ms.length
  | _ => 0

theorem groupMatrix_shape (g : PyVal) (a : List (List ℚ)) (h : groupMatrix g = some a) :
    a.length = groupRowCount g ∧ ∀ row ∈ a, row.length = groupMemberCount g := by
  rcases g with _ | ⟨l, f⟩ | ms | ms | es <;> simp [groupMatrix] at h
  · subst h
    refine ⟨rfl, ?_⟩
    intro row hrow
    simp only [List.mem_singleton] at hrow
    subst hrow
    simp [groupMemberCount]
  · subst h
    constructor
    · simp [diagOf, groupRowCount]
    · intro row hrow
      simp only [diagOf, List.mem_map] at hrow
      rcases hrow with ⟨i, _, rfl⟩
      simp [groupMemberCount]

theorem matricesOf_ok (gs : List PyVal) (as : List (List (List ℚ)))
    (h : matricesOf gs = .ok as) :
    as.length = gs.length ∧
    ∀ i, i < gs.length →
      groupMatrix (gs.getD i (.pnum (.pint 0))) = some (as.getD i []) := by
  induction gs generalizing as with
  | nil =>
    simp only [matricesOf] at h
    cases h
    exact ⟨rfl, fun i hi => by simp at hi⟩
  | cons g gs ih =>
    rcases hg : groupMatrix g with _ | m
    · rw [matricesOf, hg] at h
      simp [Bind.bind, Except.bind] at h
    · rw [matricesOf, hg] at h
      simp only [Bind.bind, Except.bind] at h
      rcases hrest : matricesOf gs with err | rest
      · rw [hrest] at h
        simp at h
      · rw [hrest] at h
        simp only [Except.ok.injEq] at h
        subst h
        rcases ih rest hrest with ⟨hlen, hall⟩
        refine ⟨by simp [hlen], ?_⟩
        intro i hi
        cases i with
        | zero => simpa using hg
        | succ i =>
          simp only [List.getD_cons_succ]
          exact hall i (by simpa using hi)

theorem rowConcat_length (seq : List (List (List ℚ))) :
    (rowConcat seq).length = (seqRows seq).prod := by
  simp [rowConcat]

theorem rowConcat_row_length (seq : List (List (List ℚ))) (r : ℕ)
    (hr : r < (seqRows seq).prod)
    (hrect : ∀ i, i < seq.length →
      ∀ row ∈ seq.getD i [], row.length = ((seq.getD i []).headD []).length) :
    ((rowConcat seq).getD r []).length =
      ((List.range seq.length).map
        (fun i => ((seq.getD i []).headD []).length)).sum := by
  unfold rowConcat
  rw [getD_range_map _ _ _ hr]
  rw [List.length_flatten]
  congr 1
  rw [List.map_map]
  refine List.map_congr_left (fun i hi => ?_)
  rw [List.mem_range] at hi
  have hrow := (c2_expandedBlock_amended seq i r hi hr).2
  simp only [Function.comp]
  rw [hrow]
  set idx := (r / tailProd (seqRows seq) (i + 1)) % (seq.getD i []).length with hidx
  have hpos : 0 < (seq.getD i []).length := by
    by_contra hzero
    push_neg at hzero
    have h0 : (seq.getD i []).length = 0 := by omega
    have : (seqRows seq).prod = 0 := by
      apply List.prod_eq_zero
      rw [← h0]
      have : (seqRows seq).getD i 0 = (seq.getD i []).length :=
        getD_map_of_lt _ _ _ hi _ _
      rw [← this]
      exact getD_mem _ _ _ (by simpa [seqRows] using hi)
    omega
  have hidxlt : idx < (seq.getD i []).length := Nat.mod_lt _ hpos
  exact hrect i hi _ (getD_mem _ _ _ hidxlt)

/-- Counterexample to claim C3: `Combination("2*((A|B) & (C|E))")`
constructs successfully — the inner `&` chains the two OR-groups into a
tuple and the integer multiplication *repeats* that tuple, so the matrix is
built from four two-row groups: 16 rows (the product of the row counts, as
the claim says) but **8** columns, while the combination references only
the `N = 4` distinct identifiers `A, B, C, E`. -/
theorem c3_counterexample :
    (construct "2*((A|B) & (C|E))".toList).toOption.map
        (fun c => (c.ids, c.matrix.length, (c.matrix.getD 0 []).length)) =
      some (["A", "B", "C", "E"], 16, 8) := by decide

/-- Claim C3, amended: when the matrix stage succeeds on a group sequence,
the final matrix has exactly `Π rᵢ` rows (`rᵢ` = 1 for a conjunctive group,
the member count for a disjunctive group) and exactly `Σ mᵢ` columns, where
`mᵢ` is group `i`'s member count.  The column count equals the distinct
identifier count `N` whenever each identifier occurrence contributes
exactly one group member, but integer repetition of a tuple of groups can
duplicate groups, making the column count a proper multiple of `N`. -/
theorem c3_matrix_shape_amended (gs : List PyVal) (m : List (List ℚ))
    (h : matrixOfSeq gs = .ok m) :
    m.length = (gs.map groupRowCount).prod ∧
    ∀ row ∈ m, row.length = (gs.map groupMemberCount).sum := by
  rcases hms : matricesOf gs with err | as
  · rw [matrixOfSeq, hms] at h
    simp [Bind.bind, Except.bind] at h
  · rw [matrixOfSeq, hms] at h
    simp only [Bind.bind, Except.bind] at h
    by_cases hemp : as.isEmpty
    · rw [if_pos hemp] at h
      cases h
    · rw [if_neg hemp] at h
      simp only [Except.ok.injEq] at h
      subst h
      rcases matricesOf_ok gs as hms with ⟨hlen, hall⟩
      have hrows : seqRows as = gs.map groupRowCount := by
        refine List.ext_getElem (by simp [seqRows, hlen]) (fun n h1 h2 => ?_)
        simp only [seqRows, List.length_map] at h1 h2
        have hn : n < gs.length := by simpa using h2
        have hg := hall n hn
        rcases groupMatrix_shape _ _ hg with ⟨hrc, _⟩
        simp only [seqRows, List.getElem_map]
        rw [← List.getD_eq_getElem as [] h1, ← List.getD_eq_getElem gs (.pnum (.pint 0)) hn,
          hrc]
      have hcols : (List.range as.length).map (fun i => ((as.getD i []).headD []).length) =
          gs.map groupMemberCount := by
        refine List.ext_getElem (by simp [hlen]) (fun n h1 h2 => ?_)
        simp only [List.length_map, List.length_range] at h1 h2
        have hn : n < gs.length := by simpa using h2
        have hg := hall n hn
        rcases groupMatrix_shape _ _ hg with ⟨_, hmc⟩
        simp only [List.getElem_map, List.getElem_range]
        rw [← List.getD_eq_getElem gs (.pnum (.pint 0)) hn]
        rcases hcase : (as.getD n []) with _ | ⟨row, rest⟩
        · rw [hcase] at hg
          rcases hgd : gs.getD n (.pnum (.pint 0)) with _ | _ | ms | ms | _ <;>
            rw [hgd] at hg <;> simp [groupMatrix] at hg
          have hlen0 := congrArg List.length hg
          simp [diagOf] at hlen0
          simp [groupMemberCount, hlen0, hgd]
        · have hmem : row ∈ as.getD n [] := by
            rw [hcase]
            exact List.mem_cons_self _ _
          have := hmc row hmem
          simpa using this
      constructor
      · rw [rowConcat_length, hrows]
      · intro row hrow
        rw [List.mem_iff_getElem] at hrow
        rcases hrow with ⟨r, hrlt, hget⟩
        have hrM : r < (seqRows as).prod := by
          rw [← rowConcat_length]
          exact hrlt
        have hrect : ∀ i, i < as.length →
            ∀ arow ∈ as.getD i [], arow.length = ((as.getD i []).headD []).length := by
          intro i hi arow hmem
          have hg := hall i (by omega)
          rcases groupMatrix_shape _ _ hg with ⟨_, hmc⟩
          rcases hcase : as.getD i [] with _ | ⟨r0, rest⟩
          · rw [hcase] at hmem
            simp at hmem
          · have h1 := hmc arow hmem
            have h2 := hmc r0 (by rw [hcase]; exact List.mem_cons_self _ _)
            simp only [List.headD_cons]
            omega
        have := rowConcat_row_length as r hrM hrect
        rw [← hget, ← List.getD_eq_getElem _ [] hrlt, this, hcols]

/-- Witness for `c3_matrix_shape_amended` at the two groups of the
module docstring's combination. -/
theorem c3_matrix_shape_amended_witness :
    isOkE (matrixOfSeq [PyVal.groupAnd [⟨"D", 1⟩, ⟨"L", 1⟩],
        PyVal.groupOr [⟨"S", 1⟩, ⟨"W", 1⟩]]) = true ∧
    ((matrixOfSeq [PyVal.groupAnd [⟨"D", 1⟩, ⟨"L", 1⟩],
        PyVal.groupOr [⟨"S", 1⟩, ⟨"W", 1⟩]]).toOption.map
      (fun m => (m.length, (m.map List.length)))) = some (2, [4, 4]) := by
  have h : ∃ m, matrixOfSeq [PyVal.groupAnd [⟨"D", 1⟩, ⟨"L", 1⟩],
      PyVal.groupOr [⟨"S", 1⟩, ⟨"W", 1⟩]] = .ok m := by
    rcases hm : matrixOfSeq [PyVal.groupAnd [⟨"D", 1⟩, ⟨"L", 1⟩],
        PyVal.groupOr [⟨"S", 1⟩, ⟨"W", 1⟩]] with err | m
    · exfalso
      have hok : isOkE (matrixOfSeq [PyVal.groupAnd [⟨"D", 1⟩, ⟨"L", 1⟩],
          PyVal.groupOr [⟨"S", 1⟩, ⟨"W", 1⟩]]) = true := by decide
      rw [hm] at hok
      simp [isOkE] at hok
    · exact ⟨m, rfl⟩
  rcases h with ⟨m, hm⟩
  rcases c3_matrix_shape_amended _ _ hm with ⟨h1, h2⟩
  rw [hm]
  refine ⟨rfl, ?_⟩
  show some (m.length, List.map List.length m) = some (2, [4, 4])
  have hrowlen : List.map List.length m = List.replicate m.length 4 := by
    rw [List.eq_replicate_iff]
    refine ⟨by simp, ?_⟩
    intro b hb
    rw [List.mem_map] at hb
    rcases hb with ⟨row, hrow, rfl⟩
    simpa using h2 row hrow
  rw [hrowlen, h1]
  decide

/-! ## Column/identifier correspondence (claim C6) -/

theorem dotZip_eq_sum_min (row vals : List ℚ) :
    dotZip row vals =
      ∑ n ∈ Finset.range (min row.length vals.length), row.getD n 0 * vals.getD n 0 := by
  induction row generalizing vals with
  | nil => simp [dotZip]
  | cons r rs ih =>
    rcases vals with _ | ⟨v, vs⟩
    · simp [dotZip]
    · have hz : dotZip (r :: rs) (v :: vs) = r * v + dotZip rs vs := by
        simp [dotZip, List.zip_cons_cons]
      have hmin : min (r :: rs).length (v :: vs).length = min rs.length vs.length + 1 := by
        simp [Nat.succ_min_succ]
      rw [hz, hmin,
        Finset.sum_range_succ' (fun n => (r :: rs).getD n 0 * (v :: vs).getD n 0)]
      simp only [List.getD_cons_succ, List.getD_cons_zero]
      rw [ih vs]
      ring

/-- Counterexample to claim C6: `Combination("0*(A&B) & (X|Y)")` constructs
successfully — `0 * (A&B)` is tuple repetition yielding the *empty* tuple,
which `&` then extends with the OR-group — leaving a 2×2 matrix while the
extracted identifier tuple has 4 entries.  There is no one-to-one
correspondence between matrix columns and identifiers: the evaluator pairs
column 0 (the coefficient of `X`) with the value supplied for `A`. -/
theorem c6_counterexample :
    (construct "0*(A&B) & (X|Y)".toList).toOption.map
        (fun c => (c.ids, c.matrix.length, (c.matrix.getD 0 []).length)) =
      some (["A", "B", "X", "Y"], 2, 2) := by decide

/-- Claim C6, amended: the synthesized evaluator pairs matrix columns with
identifiers *positionally* and truncates at the shorter of the two
(`zip(factors, identifiers)`): scenario `s` of the scalar evaluator equals
`Σ_j matrix[s][j] * values[id_j]` over `j < min(columns, N)`.  When the
matrix has exactly `N` columns this is the claim's one-to-one pairing, but
successful constructions exist whose column count differs from `N`, so the
exact one-to-one correspondence does not hold in general. -/
theorem c6_column_pairing_amended (s : List Char) (c : Comb) (vals : List ℚ)
    (sIdx : ℕ) (h : construct s = .ok c) (hlen : vals.length = c.ids.length)
    (hs : sIdx < c.matrix.length) :
    (c.evalScalar vals).getD sIdx 0 =
      ∑ n ∈ Finset.range (min ((c.matrix.getD sIdx []).length) c.ids.length),
        (c.matrix.getD sIdx []).getD n 0 * vals.getD n 0 := by
  unfold Comb.evalScalar callHandlerScalar
  rw [getD_map_of_lt _ _ _ hs _ ([] : List ℚ), dotZip_eq_sum_min, hlen]

/-- Witness for `c6_column_pairing_amended` at the counterexample
combination: scenario 0 of `Combination("0*(A&B) & (X|Y)")` evaluates
`1*values[A] + 0*values[B]` — column 0 is paired with the first
identifier `A` even though it holds the coefficient of `X`. -/
theorem c6_column_pairing_amended_witness :
    (Comb.evalScalar ⟨["A", "B", "X", "Y"], [[1, 0], [0, 1]]⟩ [5, 7, 11, 13]).getD 0 0 =
      ∑ n ∈ Finset.range (min 2 4),
        (([[1, 0], [0, 1]] : List (List ℚ)).getD 0 []).getD n 0 *
          (([5, 7, 11, 13] : List ℚ).getD n 0) := by
  have hc : construct "0*(A&B) & (X|Y)".toList =
      .ok ⟨["A", "B", "X", "Y"], [[1, 0], [0, 1]]⟩ := by decide
  have h := c6_column_pairing_amended "0*(A&B) & (X|Y)".toList
    ⟨["A", "B", "X", "Y"], [[1, 0], [0, 1]]⟩ [5, 7, 11, 13] 0 hc (by decide) (by decide)
  simpa using h

/-! ## Tokenizer infrastructure for the identifier-extraction and
rejection claims -/

/-- The identifier-name tokens of a token list, in order. -/
def identNames (ts : List Tok) : List String :=
  ts.filterMap (fun t => match t with | .ident s => some s | _ => none)

theorem opstar_char_class (c : Char) (h : (isOpChar c || c = '*') = true) :
    isWs c = false ∧ idStart c = false ∧ idCont c = false ∧
    c.isDigit = false ∧ (c = '.') = False := by
  simp only [isOpChar, Bool.or_eq_true, decide_eq_true_eq] at h
  rcases h with ((((rfl | rfl) | rfl) | rfl) | rfl) <;>
    refine ⟨by decide, by decide, by decide, by decide, by simp⟩

theorem takeWhile_append_break {p : Char → Bool} (x y : List Char) (c : Char)
    (hc : ¬ p c) : ((x ++ c :: y).takeWhile p) = x.takeWhile p := by
  induction x with
  | nil => simp [List.takeWhile, hc]
  | cons d x ih =>
    by_cases hd : p d
    · simp [List.takeWhile_cons, hd, ih]
    · simp [List.takeWhile_cons, hd]

theorem dropWhile_append_break {p : Char → Bool} (x y : List Char) (c : Char)
    (hc : ¬ p c) : ((x ++ c :: y).dropWhile p) = x.dropWhile p ++ c :: y := by
  induction x with
  | nil => simp [List.dropWhile, hc]
  | cons d x ih =>
    by_cases hd : p d
    · simp [List.dropWhile_cons, hd, ih]
    · simp [List.dropWhile_cons, hd]

theorem takeWhile_of_all {p : Char → Bool} (l : List Char) (h : ∀ c ∈ l, p c) :
    l.takeWhile p = l := by
  induction l with
  | nil => rfl
  | cons d x ih =>
    rw [List.takeWhile_cons, if_pos (h d (List.mem_cons_self _ _))]
    rw [ih (fun c hc => h c (List.mem_cons_of_mem _ hc))]

theorem dropWhile_of_all {p : Char → Bool} (l : List Char) (h : ∀ c ∈ l, p c) :
    l.dropWhile p = [] := by
  induction l with
  | nil => rfl
  | cons d x ih =>
    rw [List.dropWhile_cons, if_pos (h d (List.mem_cons_self _ _))]
    exact ih (fun c hc => h c (List.mem_cons_of_mem _ hc))

theorem tokenizeF_fuel (f1 f2 : ℕ) (l : List Char) (h1 : l.length < f1)
    (h2 : l.length < f2) : tokenizeF f1 l = tokenizeF f2 l := by
  induction f1 generalizing f2 l with
  | zero => omega
  | succ a ih =>
    cases f2 with
    | zero => omega
    | succ b =>
      cases l with
      | nil => rfl
      | cons c cs =>
        have hcs : cs.length < a ∧ cs.length < b := by
          simp only [List.length_cons] at h1 h2
          omega
        have hdw1 : (cs.dropWhile idCont).length ≤ cs.length :=
          length_dropWhile_le _ _
        have hdw2 : (cs.dropWhile Char.isDigit).length ≤ cs.length :=
          length_dropWhile_le _ _
        have hdw3 : ((cs.dropWhile Char.isDigit).tail.dropWhile Char.isDigit).length ≤
            cs.length := by
          have ha := length_dropWhile_le Char.isDigit (cs.dropWhile Char.isDigit).tail
          have hb := List.length_tail (cs.dropWhile Char.isDigit)
          omega
        simp only [tokenizeF]
        by_cases hws : isWs c
        · simp only [if_pos hws]
          exact ih b cs hcs.1 hcs.2
        · simp only [if_neg hws]
          by_cases hop : (isOpChar c || c = '*') = true
          · simp only [if_pos hop]
            rw [ih b cs hcs.1 hcs.2]
          · simp only [if_neg hop]
            by_cases hid : idStart c = true
            · simp only [if_pos hid]
              rw [ih b (cs.dropWhile idCont) (by omega) (by omega)]
            · simp only [if_neg hid]
              by_cases hdig : c.isDigit = true
              · simp only [if_pos hdig]
                by_cases hdot : ((cs.dropWhile Char.isDigit).headD ' ') = '.'
                · simp only [if_pos hdot]
                  rw [ih b _ (by omega) (by omega)]
                · simp only [if_neg hdot]
                  rw [ih b (cs.dropWhile Char.isDigit) (by omega) (by omega)]
              · simp only [if_neg hdig]
                by_cases hdc : c = '.'
                · simp only [if_pos hdc]
                  by_cases hemp : (cs.takeWhile Char.isDigit).isEmpty
                  · simp only [if_pos hemp]
                  · simp only [if_neg hemp]
                    rw [ih b (cs.dropWhile Char.isDigit) (by omega) (by omega)]
                · simp only [if_neg hdc]

theorem tokenize_ws (c : Char) (cs : List Char) (hws : isWs c = true) :
    tokenize (c :: cs) = tokenize cs := by
  show tokenizeF (cs.length + 1 + 1) (c :: cs) = tokenizeF (cs.length + 1) cs
  simp only [tokenizeF, if_pos hws]

theorem tokenize_opstar (c : Char) (cs : List Char) (hws : isWs c = false)
    (hop : (isOpChar c || c = '*') = true) :
    tokenize (c :: cs) = (tokenize cs).map (charTok c :: ·) := by
  show tokenizeF (cs.length + 1 + 1) (c :: cs) =
    (tokenizeF (cs.length + 1) cs).map (charTok c :: ·)
  simp only [tokenizeF, if_neg (by simp [hws] : ¬ isWs c = true), if_pos hop]

theorem tokenize_idStart (c : Char) (cs : List Char) (hws : isWs c = false)
    (hop : (isOpChar c || c = '*') = false) (hid : idStart c = true) :
    tokenize (c :: cs) =
      if (c :: cs.takeWhile idCont).asString ∈ pyKeywords then none
      else (tokenize (cs.dropWhile idCont)).map
        (Tok.ident (c :: cs.takeWhile idCont).asString :: ·) := by
  show tokenizeF (cs.length + 1 + 1) (c :: cs) = _
  simp only [tokenizeF, if_neg (by simp [hws] : ¬ isWs c = true),
    if_neg (by simp [hop] : ¬ (isOpChar c || c = '*') = true), if_pos hid]
  by_cases hkw : (c :: cs.takeWhile idCont).asString ∈ pyKeywords
  · simp [hkw]
  · simp only [if_neg hkw]
    rw [tokenizeF_fuel (cs.length + 1) ((cs.dropWhile idCont).length + 1)
      (cs.dropWhile idCont) (by have := length_dropWhile_le idCont cs; omega) (by omega)]
    rfl

theorem tokenize_digit (c : Char) (cs : List Char) (hws : isWs c = false)
    (hop : (isOpChar c || c = '*') = false) (hid : idStart c = false)
    (hdig : c.isDigit = true) :
    tokenize (c :: cs) =
      if ((cs.dropWhile Char.isDigit).headD ' ') = '.' then
        (tokenize ((cs.dropWhile Char.isDigit).tail.dropWhile Char.isDigit)).map
          (Tok.num (.pfloat (fracVal (c :: cs.takeWhile Char.isDigit)
            ((cs.dropWhile Char.isDigit).tail.takeWhile Char.isDigit))) :: ·)
      else (tokenize (cs.dropWhile Char.isDigit)).map
        (Tok.num (.pint (digitsVal (c :: cs.takeWhile Char.isDigit))) :: ·) := by
  show tokenizeF (cs.length + 1 + 1) (c :: cs) = _
  simp only [tokenizeF, if_neg (by simp [hws] : ¬ isWs c = true),
    if_neg (by simp [hop] : ¬ (isOpChar c || c = '*') = true),
    if_neg (by simp [hid] : ¬ idStart c = true), if_pos hdig]
  by_cases hdot : ((cs.dropWhile Char.isDigit).headD ' ') = '.'
  · simp only [if_pos hdot]
    have hlen : ((cs.dropWhile Char.isDigit).tail.dropWhile Char.isDigit).length ≤
        cs.length := by
      have ha := length_dropWhile_le Char.isDigit (cs.dropWhile Char.isDigit).tail
      have hb := List.length_tail (cs.dropWhile Char.isDigit)
      have hc2 := length_dropWhile_le Char.isDigit cs
      omega
    rw [tokenizeF_fuel (cs.length + 1)
      (((cs.dropWhile Char.isDigit).tail.dropWhile Char.isDigit).length + 1) _
      (by omega) (by omega)]
    rfl
  · simp only [if_neg hdot]
    rw [tokenizeF_fuel (cs.length + 1) ((cs.dropWhile Char.isDigit).length + 1) _
      (by have := length_dropWhile_le Char.isDigit cs; omega) (by omega)]
    rfl

theorem tokenize_dot (c : Char) (cs : List Char) (hws : isWs c = false)
    (hop : (isOpChar c || c = '*') = false) (hid : idStart c = false)
    (hdig : c.isDigit = false) (hdc : c = '.') :
    tokenize (c :: cs) =
      if (cs.takeWhile Char.isDigit).isEmpty then none
      else (tokenize (cs.dropWhile Char.isDigit)).map
        (Tok.num (.pfloat (fracVal [] (cs.takeWhile Char.isDigit))) :: ·) := by
  show tokenizeF (cs.length + 1 + 1) (c :: cs) = _
  simp only [tokenizeF, if_neg (by simp [hws] : ¬ isWs c = true),
    if_neg (by simp [hop] : ¬ (isOpChar c || c = '*') = true),
    if_neg (by simp [hid] : ¬ idStart c = true),
    if_neg (by simp [hdig] : ¬ c.isDigit = true), if_pos hdc]
  by_cases hemp : (cs.takeWhile Char.isDigit).isEmpty
  · simp [hemp]
  · simp only [if_neg hemp]
    rw [tokenizeF_fuel (cs.length + 1) ((cs.dropWhile Char.isDigit).length + 1) _
      (by have := length_dropWhile_le Char.isDigit cs; omega) (by omega)]
    rfl

theorem tokenize_bad (c : Char) (cs : List Char) (hws : isWs c = false)
    (hop : (isOpChar c || c = '*') = false) (hid : idStart c = false)
    (hdig : c.isDigit = false) (hdc : (c = '.') = False) :
    tokenize (c :: cs) = none := by
  show tokenizeF (cs.length + 1 + 1) (c :: cs) = none
  simp [tokenizeF, hws, hop, hid, hdig, hdc]

/-- Concatenation of two tokenization results around a single-token
separator. -/
def tokCat (a b : Option (List Tok)) (t : Tok) : Option (List Tok) :=
  match a, b with
  | some ta, some tb => some (ta ++ t :: tb)
  | _, _ => none

theorem tokCat_map_left (a b : Option (List Tok)) (t t0 : Tok) :
    tokCat (a.map (t0 :: ·)) b t = (tokCat a b t).map (t0 :: ·) := by
  cases a <;> cases b <;> rfl

theorem tokCat_none_left (b : Option (List Tok)) (t : Tok) :
    tokCat none b t = none := rfl

theorem tokCat_nil_left (b : Option (List Tok)) (t : Tok) :
    tokCat (some []) b t = b.map (t :: ·) := by
  cases b <;> rfl

theorem tokenize_append_break_aux (c : Char) (hc : (isOpChar c || c = '*') = true)
    (n : ℕ) : ∀ (x : List Char), x.length ≤ n → ∀ (y : List Char),
    tokenize (x ++ c :: y) = tokCat (tokenize x) (tokenize y) (charTok c) := by
  rcases opstar_char_class c hc with ⟨hwsC, hidC, hicC, hdgC, hdcC⟩
  induction n with
  | zero =>
    intro x hx y
    have hx0 : x = [] := by
      cases x
      · rfl
      · simp at hx
    subst hx0
    rw [List.nil_append, tokenize_opstar c y hwsC hc]
    rw [show tokenize [] = some [] from rfl, tokCat_nil_left]
  | succ n ih =>
    intro x hx y
    rcases x with _ | ⟨d, x'⟩
    · rw [List.nil_append, tokenize_opstar c y hwsC hc]
      rw [show tokenize [] = some [] from rfl, tokCat_nil_left]
    · have hx' : x'.length ≤ n := by
        simp only [List.length_cons] at hx
        omega
      rw [List.cons_append]
      by_cases hws : isWs d = true
      · rw [tokenize_ws d _ hws, tokenize_ws d x' hws]
        exact ih x' hx' y
      · have hwsf : isWs d = false := by simpa using hws
        by_cases hop : (isOpChar d || d = '*') = true
        · rw [tokenize_opstar d _ hwsf hop, tokenize_opstar d x' hwsf hop]
          rw [ih x' hx' y, tokCat_map_left]
        · have hopf : (isOpChar d || d = '*') = false := by simpa using hop
          by_cases hid : idStart d = true
          · rw [tokenize_idStart d _ hwsf hopf hid, tokenize_idStart d x' hwsf hopf hid]
            rw [takeWhile_append_break x' y c (by simp [hicC]),
              dropWhile_append_break x' y c (by simp [hicC])]
            by_cases hkw : (d :: x'.takeWhile idCont).asString ∈ pyKeywords
            · rw [if_pos hkw, if_pos hkw, tokCat_none_left]
            · rw [if_neg hkw, if_neg hkw]
              rw [ih (x'.dropWhile idCont)
                (le_trans (length_dropWhile_le _ _) hx') y, tokCat_map_left]
          · have hidf : idStart d = false := by simpa using hid
            by_cases hdg : d.isDigit = true
            · rw [tokenize_digit d _ hwsf hopf hidf hdg,
                tokenize_digit d x' hwsf hopf hidf hdg]
              rw [takeWhile_append_break x' y c (by simp [hdgC]),
                dropWhile_append_break x' y c (by simp [hdgC])]
              rcases hr1 : x'.dropWhile Char.isDigit with _ | ⟨e, rest⟩
              · simp only [List.nil_append, List.headD_cons, List.headD_nil]
                rw [if_neg (show ¬ (c = '.') from by simp [hdcC]),
                  if_neg (show ¬ ((' ' : Char) = '.') from by decide)]
                rw [tokenize_opstar c y hwsC hc]
                cases tokenize y <;> rfl
              · simp only [List.cons_append, List.headD_cons]
                by_cases hedot : e = '.'
                · rw [if_pos hedot, if_pos hedot]
                  simp only [List.tail_cons]
                  rw [takeWhile_append_break rest y c (by simp [hdgC]),
                    dropWhile_append_break rest y c (by simp [hdgC])]
                  have hrestlen : rest.length ≤ n := by
                    have h1 := length_dropWhile_le Char.isDigit x'
                    rw [hr1] at h1
                    simp only [List.length_cons] at h1
                    omega
                  rw [ih (rest.dropWhile Char.isDigit)
                    (le_trans (length_dropWhile_le _ _) hrestlen) y, tokCat_map_left]
                · rw [if_neg hedot, if_neg hedot]
                  have := ih (x'.dropWhile Char.isDigit)
                    (le_trans (length_dropWhile_le _ _) hx') y
                  rw [hr1] at this
                  rw [← List.cons_append, this, tokCat_map_left]
            · have hdgf : d.isDigit = false := by simpa using hdg
              by_cases hdc : d = '.'
              · rw [tokenize_dot d _ hwsf hopf hidf hdgf hdc,
                  tokenize_dot d x' hwsf hopf hidf hdgf hdc]
                rw [takeWhile_append_break x' y c (by simp [hdgC]),
                  dropWhile_append_break x' y c (by simp [hdgC])]
                by_cases hemp : (x'.takeWhile Char.isDigit).isEmpty
                · rw [if_pos hemp, if_pos hemp, tokCat_none_left]
                · rw [if_neg hemp, if_neg hemp]
                  rw [ih (x'.dropWhile Char.isDigit)
                    (le_trans (length_dropWhile_le _ _) hx') y, tokCat_map_left]
              · have hdcf : (d = '.') = False := by simp [hdc]
                rw [tokenize_bad d _ hwsf hopf hidf hdgf hdcf,
                  tokenize_bad d x' hwsf hopf hidf hdgf hdcf, tokCat_none_left]

/-- Tokenizing around an operator or `*` character splits into the two
sides' tokenizations with the operator token between them. -/
theorem tokenize_append_break (x y : List Char) (c : Char)
    (hc : (isOpChar c || c = '*') = true) :
    tokenize (x ++ c :: y) = tokCat (tokenize x) (tokenize y) (charTok c) :=
  tokenize_append_break_aux c hc x.length x le_rfl y

theorem ws_char_class (c : Char) (h : isWs c = true) :
    idCont c = false ∧ idStart c = false ∧ c.isDigit = false ∧
    (c = '.') = False ∧ (isOpChar c || c = '*') = false := by
  simp only [isWs, Bool.or_eq_true, decide_eq_true_eq] at h
  rcases h with ((rfl | rfl) | rfl) | rfl <;>
    refine ⟨by decide, by decide, by decide, by simp, by decide⟩

theorem idStart_char_class (c : Char) (h : idStart c = true) :
    isWs c = false ∧ (isOpChar c || c = '*') = false := by
  constructor
  · by_contra hws
    simp only [Bool.not_eq_false] at hws
    rcases ws_char_class c hws with ⟨_, h2, _⟩
    rw [h] at h2
    cases h2
  · by_contra hop
    simp only [Bool.not_eq_false] at hop
    rcases opstar_char_class c hop with ⟨_, h2, _⟩
    rw [h] at h2
    cases h2

theorem mem_takeWhile_ws {p : Char → Bool} (l : List Char) (c : Char)
    (h : c ∈ l.takeWhile p) : p c = true := by
  induction l with
  | nil => simp [List.takeWhile] at h
  | cons d x ih =>
    rw [List.takeWhile_cons] at h
    by_cases hd : p d
    · rw [if_pos hd] at h
      rcases List.mem_cons.mp h with rfl | h2
      · exact hd
      · exact ih h2
    · rw [if_neg hd] at h
      simp at h

theorem strip_decomp (p : List Char) :
    ∃ a b, p = a ++ strip p ++ b ∧ (∀ c ∈ a, isWs c = true) ∧
      (∀ c ∈ b, isWs c = true) := by
  refine ⟨p.takeWhile isWs, ((p.dropWhile isWs).reverse.takeWhile isWs).reverse, ?_, ?_, ?_⟩
  · unfold strip
    conv_lhs => rw [← List.takeWhile_append_dropWhile (p := isWs) (l := p)]
    rw [List.append_assoc]
    congr 1
    conv_lhs => rw [← List.reverse_reverse (p.dropWhile isWs),
      ← List.takeWhile_append_dropWhile (p := isWs) (l := (p.dropWhile isWs).reverse)]
    rw [List.reverse_append]
  · exact fun c hc => mem_takeWhile_ws _ _ hc
  · intro c hc
    rw [List.mem_reverse] at hc
    exact mem_takeWhile_ws _ _ hc

theorem strip_all_ws (p : List Char) (h : strip p = []) : ∀ c ∈ p, isWs c = true := by
  rcases strip_decomp p with ⟨a, b, hdec, ha, hb⟩
  rw [h] at hdec
  intro c hc
  rw [hdec] at hc
  simp only [List.append_nil, List.mem_append] at hc
  rcases hc with hc | hc
  · exact ha c hc
  · exact hb c hc

theorem mem_strip_sub (p : List Char) (c : Char) (h : c ∈ strip p) : c ∈ p := by
  rcases strip_decomp p with ⟨a, b, hdec, _, _⟩
  rw [hdec]
  simp [h]

theorem tokenize_all_ws (w : List Char) (hw : ∀ c ∈ w, isWs c = true) :
    tokenize w = some [] := by
  induction w with
  | nil => rfl
  | cons c cs ih =>
    rw [tokenize_ws c cs (hw c (List.mem_cons_self _ _))]
    exact ih (fun c hc => hw c (List.mem_cons_of_mem _ hc))

theorem tokenize_ws_prefix (a r : List Char) (ha : ∀ c ∈ a, isWs c = true) :
    tokenize (a ++ r) = tokenize r := by
  induction a with
  | nil => rfl
  | cons c cs ih =>
    rw [List.cons_append, tokenize_ws c _ (ha c (List.mem_cons_self _ _))]
    exact ih (fun c hc => ha c (List.mem_cons_of_mem _ hc))

/-! ## Split lemmas -/

theorem splitOnOps_ne_nil (l : List Char) : splitOnOps l ≠ [] := by
  induction l with
  | nil => simp [splitOnOps]
  | cons c cs ih =>
    rw [splitOnOps]
    by_cases hc : isOpChar c
    · simp [hc]
    · rw [if_neg hc]
      rcases hsp : splitOnOps cs with _ | ⟨f, fs⟩
      · exact absurd hsp ih
      · simp [List.modifyHead]

theorem splitOnOps_append (p l : List Char) (hp : ∀ c ∈ p, isOpChar c = false) :
    splitOnOps (p ++ l) = (splitOnOps l).modifyHead (p ++ ·) := by
  induction p with
  | nil =>
    rcases hsp : splitOnOps l with _ | ⟨f, fs⟩
    · exact absurd hsp (splitOnOps_ne_nil l)
    · simp [List.modifyHead, hsp]
  | cons c cs ih =>
    rw [List.cons_append, splitOnOps, if_neg (by simp [hp c (List.mem_cons_self _ _)])]
    rw [ih (fun c hc => hp c (List.mem_cons_of_mem _ hc))]
    rcases hsp : splitOnOps l with _ | ⟨f, fs⟩
    · exact absurd hsp (splitOnOps_ne_nil l)
    · simp [List.modifyHead]

theorem splitOnOps_break (p r : List Char) (c : Char)
    (hp : ∀ c ∈ p, isOpChar c = false) (hc : isOpChar c = true) :
    splitOnOps (p ++ c :: r) = p :: splitOnOps r := by
  rw [splitOnOps_append p _ hp, splitOnOps, if_pos hc]
  simp [List.modifyHead]

theorem splitOnOps_no_op (p : List Char) (hp : ∀ c ∈ p, isOpChar c = false) :
    splitOnOps p = [p] := by
  have := splitOnOps_append p [] hp
  simpa [splitOnOps, List.modifyHead] using this

theorem splitOnStar_ne_nil (l : List Char) : splitOnStar l ≠ [] := by
  induction l with
  | nil => simp [splitOnStar]
  | cons c cs ih =>
    rw [splitOnStar]
    by_cases hc : c = '*'
    · simp [hc]
    · rw [if_neg hc]
      rcases hsp : splitOnStar cs with _ | ⟨f, fs⟩
      · exact absurd hsp ih
      · simp [List.modifyHead]

theorem splitOnStar_append (p l : List Char) (hp : ∀ c ∈ p, (c = '*') = False) :
    splitOnStar (p ++ l) = (splitOnStar l).modifyHead (p ++ ·) := by
  induction p with
  | nil =>
    rcases hsp : splitOnStar l with _ | ⟨f, fs⟩
    · exact absurd hsp (splitOnStar_ne_nil l)
    · simp [List.modifyHead, hsp]
  | cons c cs ih =>
    rw [List.cons_append, splitOnStar, if_neg (by simp [hp c (List.mem_cons_self _ _)])]
    rw [ih (fun c hc => hp c (List.mem_cons_of_mem _ hc))]
    rcases hsp : splitOnStar l with _ | ⟨f, fs⟩
    · exact absurd hsp (splitOnStar_ne_nil l)
    · simp [List.modifyHead]

theorem splitOnStar_break (p r : List Char)
    (hp : ∀ c ∈ p, (c = '*') = False) :
    splitOnStar (p ++ '*' :: r) = p :: splitOnStar r := by
  rw [splitOnStar_append p _ hp, splitOnStar, if_pos rfl]
  simp [List.modifyHead]

theorem splitOnStar_no_star (p : List Char) (hp : ∀ c ∈ p, (c = '*') = False) :
    splitOnStar p = [p] := by
  have := splitOnStar_append p [] hp
  simpa [splitOnStar, List.modifyHead] using this

/-! ## Fragment processing lemmas -/

theorem idsOfFrags_append (fs1 fs2 : List (List Char)) (ids : List String)
    (h : idsOfFrags (fs1 ++ fs2) = .ok ids) :
    ∃ ids1 ids2, idsOfFrags fs1 = .ok ids1 ∧ idsOfFrags fs2 = .ok ids2 ∧
      ids = ids1 ++ ids2 := by
  induction fs1 generalizing ids with
  | nil => exact ⟨[], ids, rfl, h, rfl⟩
  | cons f fs ih =>
    rw [List.cons_append, idsOfFrags] at h
    rcases hcf : checkFrag f with err | o
    · rw [hcf] at h
      simp [Bind.bind, Except.bind] at h
    · rw [hcf] at h
      simp only [Bind.bind, Except.bind] at h
      rcases hrest : idsOfFrags (fs ++ fs2) with err | rest
      · rw [hrest] at h
        simp at h
      · rw [hrest] at h
        simp only [Except.ok.injEq] at h
        subst h
        rcases ih rest hrest with ⟨ids1, ids2, h1, h2, rfl⟩
        refine ⟨o.elim [] (fun i => [i]) ++ ids1, ids2, ?_, h2, by simp⟩
        rw [idsOfFrags, hcf]
        simp only [Bind.bind, Except.bind, h1]

theorem checkFrag_no_star (q : List Char) (hq : ∀ c ∈ q, (c = '*') = False) :
    checkFrag q = if (strip q).isEmpty then .ok none
      else if isIdentifier (strip q) then .ok (some (strip q).asString)
      else .error .exprErr := by
  unfold checkFrag
  rw [splitOnStar_no_star q hq]
  simp [List.getLastD]

theorem checkFrag_cons_star (q r : List Char) (hq : ∀ c ∈ q, (c = '*') = False) :
    checkFrag (q ++ '*' :: r) =
      if isDecimalish (strip q) then checkFrag r else .error .exprErr := by
  unfold checkFrag
  rw [splitOnStar_break q r hq]
  rcases hsp : splitOnStar r with _ | ⟨f, fs⟩
  · exact absurd hsp (splitOnStar_ne_nil r)
  · simp only [List.map_cons, List.dropLast_cons₂, List.all_cons, List.getLastD_cons]
    by_cases hdec : isDecimalish (strip q)
    · rw [hdec, if_pos rfl]
      rfl
    · rw [if_neg hdec]
      simp only [Bool.false_and, Bool.and_eq_true] at *
      rw [if_neg (by simp [hdec])]

theorem digit_char_class (c : Char) (h : c.isDigit = true) :
    isWs c = false ∧ (isOpChar c || c = '*') = false ∧ idStart c = false := by
  refine ⟨?_, ?_, ?_⟩
  · by_contra hws
    simp only [Bool.not_eq_false] at hws
    rcases ws_char_class c hws with ⟨_, _, hd, _⟩
    rw [h] at hd
    cases hd
  · by_contra hop
    simp only [Bool.not_eq_false] at hop
    rcases opstar_char_class c hop with ⟨_, _, _, hd, _⟩
    rw [h] at hd
    cases hd
  · by_contra hne
    simp only [Bool.not_eq_false] at hne
    simp only [idStart, Bool.or_eq_true, decide_eq_true_eq] at hne
    simp only [Char.isDigit, Bool.and_eq_true, decide_eq_true_eq, ge_iff_le] at h
    have h1 : 48 ≤ c.val.toNat := h.1
    have h2 : c.val.toNat ≤ 57 := h.2
    rcases hne with halpha | rfl
    · simp only [Char.isAlpha, Char.isUpper, Char.isLower, Bool.or_eq_true,
        Bool.and_eq_true, decide_eq_true_eq, ge_iff_le] at halpha
      rcases halpha with ⟨hu1, _⟩ | ⟨hl1, _⟩
      · have h3 : 65 ≤ c.val.toNat := hu1
        omega
      · have h3 : 97 ≤ c.val.toNat := hl1
        omega
    · exact absurd h2 (by decide)

theorem dot_char_class :
    isWs '.' = false ∧ (isOpChar '.' || '.' = '*') = false ∧ idStart '.' = false ∧
    Char.isDigit '.' = false := by decide

theorem decimalish_chars (m : List Char) (h : isDecimalish m = true) :
    ∀ c ∈ m, c.isDigit = true ∨ c = '.' := by
  intro c hc
  simp only [isDecimalish, Bool.and_eq_true, List.all_eq_true] at h
  have := h.2 (if c = '.' then '1' else c) (List.mem_map_of_mem _ hc)
  by_cases hdot : c = '.'
  · exact Or.inr hdot
  · rw [if_neg hdot] at this
    exact Or.inl this

/-- A string of digits, dots and whitespace produces no identifier
tokens. -/
theorem tokenize_no_idents (n : ℕ) : ∀ p : List Char, p.length ≤ n →
    (∀ c ∈ p, c.isDigit = true ∨ c = '.' ∨ isWs c = true) →
    ∀ tp, tokenize p = some tp → identNames tp = [] := by
  induction n with
  | zero =>
    intro p hp _ tp htp
    have : p = [] := by
      cases p
      · rfl
      · simp at hp
    subst this
    cases htp
    rfl
  | succ n ih =>
    intro p hp hchars tp htp
    rcases p with _ | ⟨c, cs⟩
    · cases htp
      rfl
    · have hcs : cs.length ≤ n := by
        simp only [List.length_cons] at hp
        omega
      have hchars' : ∀ x ∈ cs, x.isDigit = true ∨ x = '.' ∨ isWs x = true :=
        fun x hx => hchars x (List.mem_cons_of_mem _ hx)
      have hsub : ∀ (q : List Char), q.Sublist cs →
          ∀ x ∈ q, x.isDigit = true ∨ x = '.' ∨ isWs x = true :=
        fun q hq x hx => hchars' x (hq.subset hx)
      rcases hchars c (List.mem_cons_self _ _) with hdg | rfl | hws
      · rcases digit_char_class c hdg with ⟨hws0, hop0, hid0⟩
        rw [tokenize_digit c cs hws0 hop0 hid0 hdg] at htp
        by_cases hdot : ((cs.dropWhile Char.isDigit).headD ' ') = '.'
        · rw [if_pos hdot] at htp
          rcases hrec : tokenize ((cs.dropWhile Char.isDigit).tail.dropWhile Char.isDigit)
            with _ | ts
          · rw [hrec] at htp
            cases htp
          · rw [hrec] at htp
            simp only [Option.map_some', Option.some.injEq] at htp
            subst htp
            have hq : ((cs.dropWhile Char.isDigit).tail.dropWhile Char.isDigit).Sublist cs :=
              ((List.dropWhile_sublist _).trans
                (List.tail_sublist _)).trans (List.dropWhile_sublist _)
            have := ih _ (le_trans (List.Sublist.length_le hq) hcs) (hsub _ hq) ts hrec
            exact this
        · rw [if_neg hdot] at htp
          rcases hrec : tokenize (cs.dropWhile Char.isDigit) with _ | ts
          · rw [hrec] at htp
            cases htp
          · rw [hrec] at htp
            simp only [Option.map_some', Option.some.injEq] at htp
            subst htp
            have hq : (cs.dropWhile Char.isDigit).Sublist cs := List.dropWhile_sublist _
            have := ih _ (le_trans (List.Sublist.length_le hq) hcs) (hsub _ hq) ts hrec
            exact this
      · rcases dot_char_class with ⟨hws0, hop0, hid0, hdg0⟩
        rw [tokenize_dot '.' cs hws0 hop0 hid0 hdg0 rfl] at htp
        by_cases hemp : (cs.takeWhile Char.isDigit).isEmpty
        · rw [if_pos hemp] at htp
          cases htp
        · rw [if_neg hemp] at htp
          rcases hrec : tokenize (cs.dropWhile Char.isDigit) with _ | ts
          · rw [hrec] at htp
            cases htp
          · rw [hrec] at htp
            simp only [Option.map_some', Option.some.injEq] at htp
            subst htp
            have hq : (cs.dropWhile Char.isDigit).Sublist cs := List.dropWhile_sublist _
            have := ih _ (le_trans (List.Sublist.length_le hq) hcs) (hsub _ hq) ts hrec
            exact this
      · rw [tokenize_ws c cs hws] at htp
        exact ih cs hcs hchars' tp htp

/-- Tokenizing an identifier surrounded by whitespace yields exactly that
identifier token (or rejects a keyword). -/
theorem tokenize_ident_piece (a m b : List Char) (ha : ∀ c ∈ a, isWs c = true)
    (hb : ∀ c ∈ b, isWs c = true) (hm : isIdentifier m = true) :
    tokenize (a ++ m ++ b) =
      if m.asString ∈ pyKeywords then none else some [Tok.ident m.asString] := by
  rw [List.append_assoc, tokenize_ws_prefix a _ ha]
  rcases m with _ | ⟨c, cs⟩
  · simp [isIdentifier] at hm
  · simp only [isIdentifier, Bool.and_eq_true, List.all_eq_true] at hm
    rcases hm with ⟨hstart, hcont⟩
    rcases idStart_char_class c hstart with ⟨hws0, hop0⟩
    rw [List.cons_append, tokenize_idStart c (cs ++ b) hws0 hop0 hstart]
    have htake : (cs ++ b).takeWhile idCont = cs := by
      rcases b with _ | ⟨wb, b'⟩
      · rw [List.append_nil]
        exact takeWhile_of_all cs hcont
      · rw [takeWhile_append_break cs b' wb
          (by simp [(ws_char_class wb (hb wb (List.mem_cons_self _ _))).1])]
        exact takeWhile_of_all cs hcont
    have hdrop : (cs ++ b).dropWhile idCont = b := by
      rcases b with _ | ⟨wb, b'⟩
      · rw [List.append_nil, dropWhile_of_all cs hcont]
      · rw [dropWhile_append_break cs b' wb
          (by simp [(ws_char_class wb (hb wb (List.mem_cons_self _ _))).1])]
        rw [dropWhile_of_all cs hcont, List.nil_append]
    rw [htake, hdrop, tokenize_all_ws b hb]
    rfl

theorem dropWhile_head_false {p : Char → Bool} (l : List Char) (c : Char)
    (r : List Char) (h : l.dropWhile p = c :: r) : p c = false := by
  induction l with
  | nil => simp [List.dropWhile] at h
  | cons d x ih =>
    rw [List.dropWhile_cons] at h
    by_cases hd : p d
    · rw [if_pos hd] at h
      exact ih h
    · rw [if_neg hd] at h
      cases h
      simpa using hd

theorem dropWhile_nil_all {p : Char → Bool} (l : List Char)
    (h : l.dropWhile p = []) : ∀ c ∈ l, p c = true := by
  induction l with
  | nil => simp
  | cons d x ih =>
    rw [List.dropWhile_cons] at h
    by_cases hd : p d
    · rw [if_pos hd] at h
      intro c hc
      rcases List.mem_cons.mp hc with rfl | hc
      · exact hd
      · exact ih h c hc
    · rw [if_neg hd] at h
      cases h

theorem identNames_sep (xs ys : List Tok) (c : Char) :
    identNames (xs ++ charTok c :: ys) = identNames xs ++ identNames ys := by
  have ht : (fun t => match t with | Tok.ident s => some s | _ => none) (charTok c)
      = none := by
    unfold charTok
    split_ifs <;> rfl
  simp [identNames, List.filterMap_append, List.filterMap_cons, ht]

/-- The identifier recorded by one fragment matches the identifier tokens of
the fragment's text (with trailing whitespace). -/
theorem frag_tokens (n : ℕ) : ∀ f b : List Char, f.length ≤ n →
    (∀ c ∈ b, isWs c = true) → ∀ tf o,
    tokenize (f ++ b) = some tf → checkFrag f = .ok o →
    identNames tf = o.elim [] (fun i => [i]) := by
  induction n with
  | zero =>
    intro f b hf hb tf o htp hcf
    have hf0 : f = [] := by
      cases f
      · rfl
      · simp at hf
    subst hf0
    rw [show checkFrag [] = .ok none from rfl] at hcf
    cases hcf
    rw [List.nil_append, tokenize_all_ws b hb] at htp
    cases htp
    rfl
  | succ n ih =>
    intro f b hf hb tf o htp hcf
    rcases hsplit : f.dropWhile (fun c => !(c = '*' : Bool)) with _ | ⟨c, r⟩
    · -- no `*` in the fragment
      have hnostar : ∀ c ∈ f, (c = '*') = False := by
        intro c hc
        have h1 := dropWhile_nil_all f hsplit c hc
        simp only [Bool.not_eq_true', decide_eq_false_iff_not] at h1
        simp [h1]
      rw [checkFrag_no_star f hnostar] at hcf
      by_cases hemp : (strip f).isEmpty
      · rw [if_pos hemp] at hcf
        cases hcf
        have hws : ∀ c ∈ f, isWs c = true :=
          strip_all_ws f (by simpa [List.isEmpty_iff] using hemp)
        have hall : tokenize (f ++ b) = some [] := by
          refine tokenize_all_ws _ ?_
          intro c hc
          rcases List.mem_append.mp hc with h | h
          · exact hws c h
          · exact hb c h
        rw [hall] at htp
        cases htp
        rfl
      · rw [if_neg hemp] at hcf
        by_cases hident : isIdentifier (strip f) = true
        · rw [if_pos hident] at hcf
          cases hcf
          rcases strip_decomp f with ⟨a, b0, hdec, ha, hb0⟩
          rw [hdec] at htp
          have hre : (a ++ strip f ++ b0) ++ b = a ++ strip f ++ (b0 ++ b) := by
            simp [List.append_assoc]
          have hb0b : ∀ c ∈ b0 ++ b, isWs c = true := by
            intro c hc
            rcases List.mem_append.mp hc with h | h
            · exact hb0 c h
            · exact hb c h
          rw [hre, tokenize_ident_piece a (strip f) (b0 ++ b) ha hb0b hident] at htp
          by_cases hkw : (strip f).asString ∈ pyKeywords
          · rw [if_pos hkw] at htp
            cases htp
          · rw [if_neg hkw] at htp
            cases htp
            rfl
        · rw [if_neg hident] at hcf
          cases hcf
    · -- the fragment splits at its first `*`
      have hc : c = '*' := by
        have h1 := dropWhile_head_false f c r hsplit
        simpa using h1
      subst hc
      have hfdec : f = f.takeWhile (fun c => !(c = '*' : Bool)) ++ '*' :: r := by
        conv_lhs => rw [← List.takeWhile_append_dropWhile
          (p := fun c => !(c = '*' : Bool)) (l := f)]
        rw [hsplit]
      have hqstar : ∀ c ∈ f.takeWhile (fun c => !(c = '*' : Bool)), (c = '*') = False := by
        intro c hc2
        have h1 := mem_takeWhile_ws (p := fun c => !(c = '*' : Bool)) _ _ hc2
        simp only [Bool.not_eq_true', decide_eq_false_iff_not] at h1
        simp [h1]
      rw [hfdec, checkFrag_cons_star _ r hqstar] at hcf
      by_cases hdec : isDecimalish (strip (f.takeWhile (fun c => !(c = '*' : Bool)))) = true
      · rw [if_pos hdec] at hcf
        rw [hfdec] at htp
        have hre : (f.takeWhile (fun c => !(c = '*' : Bool)) ++ '*' :: r) ++ b =
            f.takeWhile (fun c => !(c = '*' : Bool)) ++ '*' :: (r ++ b) := by
          simp
        rw [hre, tokenize_append_break _ (r ++ b) '*' (by decide)] at htp
        rcases htq : tokenize (f.takeWhile (fun c => !(c = '*' : Bool))) with _ | tq
        · rw [htq] at htp
          simp [tokCat] at htp
        · rcases htr : tokenize (r ++ b) with _ | tr
          · rw [htq, htr] at htp
            simp [tokCat] at htp
          · rw [htq, htr] at htp
            simp only [tokCat, Option.some.injEq] at htp
            subst htp
            have hrlen : r.length ≤ n := by
              have hlf := congrArg List.length hfdec
              simp only [List.length_append, List.length_cons] at hlf
              omega
            have h2 := ih r b hrlen hb tr o htr hcf
            have h1 : identNames tq = [] := by
              rcases strip_decomp (f.takeWhile (fun c => !(c = '*' : Bool)))
                with ⟨a, b0, hdq, ha, hb0⟩
              refine tokenize_no_idents (f.takeWhile (fun c => !(c = '*' : Bool))).length
                _ le_rfl ?_ tq htq
              intro x hx
              rw [hdq] at hx
              rcases List.mem_append.mp hx with hx | hx
              · rcases List.mem_append.mp hx with hx | hx
                · exact Or.inr (Or.inr (ha x hx))
                · rcases decimalish_chars _ hdec x hx with h | h
                  · exact Or.inl h
                  · exact Or.inr (Or.inl h)
              · exact Or.inr (Or.inr (hb0 x hx))
            rw [identNames_sep, h1, h2]
            simp
      · rw [if_neg hdec] at hcf
        cases hcf

/-- The identifiers collected from one (stripped, possibly dropped)
operator-free piece match the piece's identifier tokens. -/
theorem piece_ids (p : List Char) (tp : List Tok) (ids1 : List String)
    (htp : tokenize p = some tp)
    (hids : idsOfFrags (if (strip p).isEmpty then [] else [strip p]) = .ok ids1) :
    ids1 = identNames tp := by
  by_cases hemp : (strip p).isEmpty
  · rw [if_pos hemp] at hids
    cases hids
    have hws : ∀ c ∈ p, isWs c = true :=
      strip_all_ws p (by simpa [List.isEmpty_iff] using hemp)
    rw [tokenize_all_ws p hws] at htp
    cases htp
    rfl
  · rw [if_neg hemp] at hids
    rw [idsOfFrags] at hids
    rcases hcf : checkFrag (strip p) with err | o
    · rw [hcf] at hids
      simp [Bind.bind, Except.bind] at hids
    · rw [hcf] at hids
      simp only [Bind.bind, Except.bind, idsOfFrags, Except.ok.injEq] at hids
      subst hids
      rcases strip_decomp p with ⟨a, b0, hdec, ha, hb0⟩
      have htp' : tokenize (strip p ++ b0) = some tp := by
        rw [← tokenize_ws_prefix a _ ha, ← List.append_assoc, ← hdec]
        exact htp
      have := frag_tokens (strip p).length (strip p) b0 le_rfl hb0 tp o htp' hcf
      rw [this]
      simp

/-- Master lemma: on any string whose fragment loop succeeds and which
tokenizes, the collected identifiers are exactly the identifier tokens in
order. -/
theorem frags_identNames (n : ℕ) : ∀ s : List Char, s.length ≤ n →
    ∀ toks ids, tokenize s = some toks →
    idsOfFrags (fragmentsOf s) = .ok ids → ids = identNames toks := by
  induction n with
  | zero =>
    intro s hs toks ids htk hids
    have hs0 : s = [] := by
      cases s
      · rfl
      · simp at hs
    subst hs0
    cases htk
    cases hids
    rfl
  | succ n ih =>
    intro s hs toks ids htk hids
    rcases hsplit : s.dropWhile (fun c => !isOpChar c) with _ | ⟨c, r⟩
    · -- no operator characters: a single piece
      have hnop : ∀ c ∈ s, isOpChar c = false := by
        intro c hc
        have h1 := dropWhile_nil_all s hsplit c hc
        simpa using h1
      have hfr : fragmentsOf s = if (strip s).isEmpty then [] else [strip s] := by
        unfold fragmentsOf
        rw [splitOnOps_no_op s hnop]
        by_cases hemp : (strip s).isEmpty
        · simp [hemp]
        · simp [hemp]
      rw [hfr] at hids
      exact piece_ids s toks ids htk hids
    · have hc : isOpChar c = true := by
        have h1 := dropWhile_head_false s c r hsplit
        simpa using h1
      have hsdec : s = s.takeWhile (fun c => !isOpChar c) ++ c :: r := by
        conv_lhs => rw [← List.takeWhile_append_dropWhile
          (p := fun c => !isOpChar c) (l := s)]
        rw [hsplit]
      have hpnop : ∀ x ∈ s.takeWhile (fun c => !isOpChar c), isOpChar x = false := by
        intro x hx
        have h1 := mem_takeWhile_ws (p := fun c => !isOpChar c) _ _ hx
        simpa using h1
      have hfr : fragmentsOf s =
          (if (strip (s.takeWhile (fun c => !isOpChar c))).isEmpty then []
            else [strip (s.takeWhile (fun c => !isOpChar c))]) ++ fragmentsOf r := by
        conv_lhs => rw [hsdec]
        unfold fragmentsOf
        rw [splitOnOps_break _ r c hpnop hc]
        simp only [List.map_cons, List.filter_cons]
        by_cases hemp : (strip (s.takeWhile (fun c => !isOpChar c))).isEmpty
        · simp [hemp]
        · simp [hemp]
      rw [hfr] at hids
      rcases idsOfFrags_append _ _ ids hids with ⟨ids1, ids2, h1, h2, rfl⟩
      rw [hsdec, tokenize_append_break _ (r) c (by simp [hc])] at htk
      rcases htq : tokenize (s.takeWhile (fun c => !isOpChar c)) with _ | tp
      · rw [htq] at htk
        simp [tokCat] at htk
      · rcases htr : tokenize r with _ | tr
        · rw [htq, htr] at htk
          simp [tokCat] at htk
        · rw [htq, htr] at htk
          simp only [tokCat, Option.some.injEq] at htk
          subst htk
          have hrlen : r.length ≤ n := by
            have hlf := congrArg List.length hsdec
            simp only [List.length_append, List.length_cons] at hlf
            omega
          rw [identNames_sep, piece_ids _ tp ids1 htq h1, ih r hrlen tr ids2 htr h2]

/-- Counterexample to claim C4: duplicate occurrences are *not* collapsed —
`_get_identifiers("1.2*L & 1.4*L")` returns `("L", "L")`, not `("L",)`. -/
theorem c4_counterexample :
    getIdentifiers "1.2*L & 1.4*L".toList = .ok ["L", "L"] ∧
    getIdentifiers "1.2*L & 1.4*L".toList ≠ .ok ["L"] := by
  refine ⟨by decide, by decide⟩

/-- Claim C4, amended: for every string accepted by `_get_identifiers`, the
returned tuple is the sequence of identifier occurrences of the string in
first-appearance (left-to-right) order, with duplicate occurrences *kept*,
not collapsed (e.g. `"1.2*D & 1.6*L & 0.5*(Lr|S|R)"` yields
`("D","L","Lr","S","R")`, and a string mentioning an identifier twice
yields it twice).  Formally: the result equals the identifier tokens of the
string's tokenization, in order. -/
theorem c4_extraction_amended (s : List Char) (toks : List Tok) (ids : List String)
    (h1 : getIdentifiers s = .ok ids) (h2 : tokenize s = some toks) :
    ids = identNames toks := by
  unfold getIdentifiers at h1
  rcases hfr : idsOfFrags (fragmentsOf s) with err | ids'
  · rw [hfr] at h1
    simp [Bind.bind, Except.bind] at h1
  · rw [hfr] at h1
    simp only [Bind.bind, Except.bind] at h1
    by_cases hps : (pyParse s).isSome
    · rw [if_pos hps] at h1
      simp only [pure, Except.pure, Except.ok.injEq] at h1
      subst h1
      exact frags_identNames s.length s le_rfl toks ids' h2 hfr
    · rw [if_neg hps] at h1
      cases h1

/-- Witness for `c4_extraction_amended` at the spec's example string. -/
theorem c4_extraction_amended_witness :
    getIdentifiers "1.2*D & 1.6*L & 0.5*(Lr|S|R)".toList =
      .ok ["D", "L", "Lr", "S", "R"] ∧
    (tokenize "1.2*D & 1.6*L & 0.5*(Lr|S|R)".toList).map identNames =
      some ["D", "L", "Lr", "S", "R"] := by
  refine ⟨by decide, ?_⟩
  rcases htk : tokenize "1.2*D & 1.6*L & 0.5*(Lr|S|R)".toList with _ | toks
  · exfalso
    have hsome : (tokenize "1.2*D & 1.6*L & 0.5*(Lr|S|R)".toList).isSome = true := by
      decide
    rw [htk] at hsome
    cases hsome
  · have h := c4_extraction_amended "1.2*D & 1.6*L & 0.5*(Lr|S|R)".toList toks
      ["D", "L", "Lr", "S", "R"] (by decide) htk
    rw [Option.map_some', ← h]

/-! ## Parser shape lemmas (for the rejection claim C9) -/

/-- Tokens that can end a well-formed expression. -/
def isEndTok : Tok → Bool
  | .num _ => true
  | .ident _ => true
  | .rpar => true
  | _ => false

/-- Occurrences of a token. -/
def countT (t : Tok) (ts : List Tok) : ℕ := (ts.filter (fun x => x = t)).length

/-- Occurrences of a character. -/
def countC (c : Char) (s : List Char) : ℕ := (s.filter (fun x => x = c)).length

theorem countT_append (t : Tok) (l1 l2 : List Tok) :
    countT t (l1 ++ l2) = countT t l1 + countT t l2 := by
  simp [countT, List.filter_append]

theorem countT_cons (t x : Tok) (l : List Tok) :
    countT t (x :: l) = (if x = t then 1 else 0) + countT t l := by
  simp only [countT, List.filter_cons]
  by_cases h : x = t
  · simp [h, Nat.add_comm]
  · simp [h]

theorem countC_append (c : Char) (l1 l2 : List Char) :
    countC c (l1 ++ l2) = countC c l1 + countC c l2 := by
  simp [countC, List.filter_append]

theorem countC_cons (c x : Char) (l : List Char) :
    countC c (x :: l) = (if x = c then 1 else 0) + countC c l := by
  simp only [countC, List.filter_cons]
  by_cases h : x = c
  · simp [h, Nat.add_comm]
  · simp [h]

theorem countC_eq_zero (c : Char) (l : List Char) (h : ∀ x ∈ l, (x = c) = False) :
    countC c l = 0 := by
  simp only [countC, List.length_eq_zero, List.filter_eq_nil_iff]
  intro x hx
  simp [h x hx]

/-- Paren-balance of a token list. -/
def balancedT (ts : List Tok) : Prop := countT Tok.lpar ts = countT Tok.rpar ts

/-- The shape of the tokens consumed by a successful (non-loop) parse:
nonempty, ending in a number, a name or `)`, and paren-balanced. -/
def goodShape (pre : List Tok) : Prop :=
  pre ≠ [] ∧ (∃ t, pre.getLast? = some t ∧ isEndTok t = true) ∧ balancedT pre

/-- The shape of the tokens consumed by a parse loop: possibly empty. -/
def loopShape (pre : List Tok) : Prop :=
  balancedT pre ∧ (pre = [] ∨ ∃ t, pre.getLast? = some t ∧ isEndTok t = true)

theorem getLast?_cons_of_ne {α : Type} (a : α) (m : List α) (h : m ≠ []) :
    (a :: m).getLast? = m.getLast? := by
  rcases m with _ | ⟨b, m'⟩
  · exact absurd rfl h
  · exact List.getLast?_cons_cons

theorem getLast?_append_right {α : Type} (l1 l2 : List α) (h : l2 ≠ []) :
    (l1 ++ l2).getLast? = l2.getLast? := by
  induction l1 with
  | nil => rfl
  | cons a l ih =>
    rw [List.cons_append, getLast?_cons_of_ne a _ (by simp [h]), ih]

theorem goodShape_append_loop (p1 p2 : List Tok) (h1 : goodShape p1)
    (h2 : loopShape p2) : goodShape (p1 ++ p2) := by
  rcases h1 with ⟨hne, hend, hbal⟩
  rcases h2 with ⟨hbal2, hcase⟩
  refine ⟨by simp [hne], ?_, ?_⟩
  · rcases hcase with rfl | ⟨t, hlast, hend2⟩
    · rw [List.append_nil]
      exact hend
    · refine ⟨t, ?_, hend2⟩
      rw [getLast?_append_right p1 p2 (by rintro rfl; simp at hlast)]
      exact hlast
  · unfold balancedT at *
    rw [countT_append, countT_append, hbal, hbal2]

theorem loopShape_extend (t : Tok) (p1 p2 : List Tok)
    (ht : isEndTok t = false ∧ (t = Tok.lpar) = False ∧ (t = Tok.rpar) = False)
    (h1 : goodShape p1) (h2 : loopShape p2) : loopShape (t :: (p1 ++ p2)) := by
  have hg := goodShape_append_loop p1 p2 h1 h2
  rcases hg with ⟨hne, ⟨u, hlast, hu⟩, hbal⟩
  refine ⟨?_, Or.inr ⟨u, ?_, hu⟩⟩
  · unfold balancedT at *
    rw [countT_cons, countT_cons, hbal]
    simp [ht.2.1, ht.2.2]
  · rw [getLast?_cons_of_ne _ _ hne]
    exact hlast

theorem parse_shape (fuel : ℕ) :
    (∀ ts e rem, parseAtom fuel ts = some (e, rem) →
      ∃ pre, ts = pre ++ rem ∧ goodShape pre) ∧
    (∀ acc ts e rem, parseMulLoop fuel acc ts = some (e, rem) →
      ∃ pre, ts = pre ++ rem ∧ loopShape pre) ∧
    (∀ ts e rem, parseMul fuel ts = some (e, rem) →
      ∃ pre, ts = pre ++ rem ∧ goodShape pre) ∧
    (∀ acc ts e rem, parseAndLoop fuel acc ts = some (e, rem) →
      ∃ pre, ts = pre ++ rem ∧ loopShape pre) ∧
    (∀ ts e rem, parseAnd fuel ts = some (e, rem) →
      ∃ pre, ts = pre ++ rem ∧ goodShape pre) ∧
    (∀ acc ts e rem, parseOrLoop fuel acc ts = some (e, rem) →
      ∃ pre, ts = pre ++ rem ∧ loopShape pre) ∧
    (∀ ts e rem, parseOr fuel ts = some (e, rem) →
      ∃ pre, ts = pre ++ rem ∧ goodShape pre) := by
  induction fuel with
  | zero =>
    refine ⟨?_, ?_, ?_, ?_, ?_, ?_, ?_⟩ <;> intros <;>
      simp [parseAtom, parseMulLoop, parseMul, parseAndLoop, parseAnd,
        parseOrLoop, parseOr] at *
  | succ fuel ih =>
    rcases ih with ⟨ihAtom, ihMulLoop, ihMul, ihAndLoop, ihAnd, ihOrLoop, ihOr⟩
    have hAtom : ∀ ts e rem, parseAtom (fuel + 1) ts = some (e, rem) →
        ∃ pre, ts = pre ++ rem ∧ goodShape pre := by
      intro ts e rem h
      rcases ts with _ | ⟨t, rest⟩
      · simp [parseAtom] at h
      · cases t with
        | num nn =>
          rw [parseAtom] at h
          cases h
          exact ⟨[Tok.num nn], rfl, by simp [goodShape, isEndTok, balancedT, countT]⟩
        | ident s =>
          rw [parseAtom] at h
          cases h
          exact ⟨[Tok.ident s], rfl, by simp [goodShape, isEndTok, balancedT, countT]⟩
        | lpar =>
          rw [parseAtom] at h
          rcases hor : parseOr fuel rest with _ | ⟨e', rem'⟩
          · rw [hor] at h
            cases h
          · rw [hor] at h
            rcases rem' with _ | ⟨u, rem''⟩
            · cases h
            · cases u with
              | rpar =>
                cases h
                rcases ihOr rest e (Tok.rpar :: rem) hor with ⟨pre, hpre, hg⟩
                refine ⟨Tok.lpar :: pre ++ [Tok.rpar], ?_, ?_, ?_, ?_⟩
                · rw [hpre]
                  simp
                · simp
                · refine ⟨Tok.rpar, ?_, rfl⟩
                  rw [show Tok.lpar :: pre ++ [Tok.rpar] =
                    Tok.lpar :: (pre ++ [Tok.rpar]) from rfl]
                  rw [getLast?_cons_of_ne _ _ (by simp),
                    getLast?_append_right pre [Tok.rpar] (by simp)]
                  rfl
                · rcases hg with ⟨_, _, hbal⟩
                  unfold balancedT at *
                  rw [show Tok.lpar :: pre ++ [Tok.rpar] =
                    Tok.lpar :: (pre ++ [Tok.rpar]) from rfl]
                  rw [countT_cons, countT_cons, countT_append, countT_append]
                  simp only [countT] at hbal ⊢
                  simp [hbal]
                  omega
              | num nn => cases h
              | ident s => cases h
              | star => cases h
              | amp => cases h
              | bar => cases h
              | lpar => cases h
        | rpar => simp [parseAtom] at h
        | star => simp [parseAtom] at h
        | amp => simp [parseAtom] at h
        | bar => simp [parseAtom] at h
    have hMulLoop : ∀ acc ts e rem, parseMulLoop (fuel + 1) acc ts = some (e, rem) →
        ∃ pre, ts = pre ++ rem ∧ loopShape pre := by
      intro acc ts e rem h
      rcases ts with _ | ⟨t, rest⟩
      · rw [parseMulLoop] at h
        · cases h
          exact ⟨[], rfl, by simp [loopShape, balancedT, countT]⟩
        · simp
      · cases t with
        | star =>
          rw [parseMulLoop] at h
          rcases hat : parseAtom fuel rest with _ | ⟨b, r2⟩
          · rw [hat] at h
            cases h
          · rw [hat] at h
            rcases ihAtom rest b r2 hat with ⟨p1, rfl, hg1⟩
            rcases ihMulLoop _ r2 e rem h with ⟨p2, rfl, hg2⟩
            exact ⟨Tok.star :: (p1 ++ p2), by simp,
              loopShape_extend _ _ _ ⟨rfl, by simp, by simp⟩ hg1 hg2⟩
        | num nn =>
          rw [parseMulLoop] at h
          · cases h
            exact ⟨[], rfl, by simp [loopShape, balancedT, countT]⟩
          · simp
        | ident s =>
          rw [parseMulLoop] at h
          · cases h
            exact ⟨[], rfl, by simp [loopShape, balancedT, countT]⟩
          · simp
        | amp =>
          rw [parseMulLoop] at h
          · cases h
            exact ⟨[], rfl, by simp [loopShape, balancedT, countT]⟩
          · simp
        | bar =>
          rw [parseMulLoop] at h
          · cases h
            exact ⟨[], rfl, by simp [loopShape, balancedT, countT]⟩
          · simp
        | lpar =>
          rw [parseMulLoop] at h
          · cases h
            exact ⟨[], rfl, by simp [loopShape, balancedT, countT]⟩
          · simp
        | rpar =>
          rw [parseMulLoop] at h
          · cases h
            exact ⟨[], rfl, by simp [loopShape, balancedT, countT]⟩
          · simp
    have hMul : ∀ ts e rem, parseMul (fuel + 1) ts = some (e, rem) →
        ∃ pre, ts = pre ++ rem ∧ goodShape pre := by
      intro ts e rem h
      rw [parseMul] at h
      rcases hat : parseAtom fuel ts with _ | ⟨a, rest⟩
      · rw [hat] at h
        cases h
      · rw [hat] at h
        rcases ihAtom ts a rest hat with ⟨p1, rfl, hg1⟩
        rcases ihMulLoop a rest e rem h with ⟨p2, rfl, hg2⟩
        exact ⟨p1 ++ p2, by simp, goodShape_append_loop p1 p2 hg1 hg2⟩
    have hAndLoop : ∀ acc ts e rem, parseAndLoop (fuel + 1) acc ts = some (e, rem) →
        ∃ pre, ts = pre ++ rem ∧ loopShape pre := by
      intro acc ts e rem h
      rcases ts with _ | ⟨t, rest⟩
      · rw [parseAndLoop] at h
        · cases h
          exact ⟨[], rfl, by simp [loopShape, balancedT, countT]⟩
        · simp
      · cases t with
        | amp =>
          rw [parseAndLoop] at h
          rcases hat : parseMul fuel rest with _ | ⟨b, r2⟩
          · rw [hat] at h
            cases h
          · rw [hat] at h
            rcases hMul' : ihMul rest b r2 hat with ⟨p1, rfl, hg1⟩
            rcases ihAndLoop _ r2 e rem h with ⟨p2, rfl, hg2⟩
            exact ⟨Tok.amp :: (p1 ++ p2), by simp,
              loopShape_extend _ _ _ ⟨rfl, by simp, by simp⟩ hg1 hg2⟩
        | num nn =>
          rw [parseAndLoop] at h
          · cases h
            exact ⟨[], rfl, by simp [loopShape, balancedT, countT]⟩
          · simp
        | ident s =>
          rw [parseAndLoop] at h
          · cases h
            exact ⟨[], rfl, by simp [loopShape, balancedT, countT]⟩
          · simp
        | star =>
          rw [parseAndLoop] at h
          · cases h
            exact ⟨[], rfl, by simp [loopShape, balancedT, countT]⟩
          · simp
        | bar =>
          rw [parseAndLoop] at h
          · cases h
            exact ⟨[], rfl, by simp [loopShape, balancedT, countT]⟩
          · simp
        | lpar =>
          rw [parseAndLoop] at h
          · cases h
            exact ⟨[], rfl, by simp [loopShape, balancedT, countT]⟩
          · simp
        | rpar =>
          rw [parseAndLoop] at h
          · cases h
            exact ⟨[], rfl, by simp [loopShape, balancedT, countT]⟩
          · simp
    have hAnd : ∀ ts e rem, parseAnd (fuel + 1) ts = some (e, rem) →
        ∃ pre, ts = pre ++ rem ∧ goodShape pre := by
      intro ts e rem h
      rw [parseAnd] at h
      rcases hat : parseMul fuel ts with _ | ⟨a, rest⟩
      · rw [hat] at h
        cases h
      · rw [hat] at h
        rcases ihMul ts a rest hat with ⟨p1, rfl, hg1⟩
        rcases ihAndLoop a rest e rem h with ⟨p2, rfl, hg2⟩
        exact ⟨p1 ++ p2, by simp, goodShape_append_loop p1 p2 hg1 hg2⟩
    have hOrLoop : ∀ acc ts e rem, parseOrLoop (fuel + 1) acc ts = some (e, rem) →
        ∃ pre, ts = pre ++ rem ∧ loopShape pre := by
      intro acc ts e rem h
      rcases ts with _ | ⟨t, rest⟩
      · rw [parseOrLoop] at h
        · cases h
          exact ⟨[], rfl, by simp [loopShape, balancedT, countT]⟩
        · simp
      · cases t with
        | bar =>
          rw [parseOrLoop] at h
          rcases hat : parseAnd fuel rest with _ | ⟨b, r2⟩
          · rw [hat] at h
            cases h
          · rw [hat] at h
            rcases ihAnd rest b r2 hat with ⟨p1, rfl, hg1⟩
            rcases ihOrLoop _ r2 e rem h with ⟨p2, rfl, hg2⟩
            exact ⟨Tok.bar :: (p1 ++ p2), by simp,
              loopShape_extend _ _ _ ⟨rfl, by simp, by simp⟩ hg1 hg2⟩
        | num nn =>
          rw [parseOrLoop] at h
          · cases h
            exact ⟨[], rfl, by simp [loopShape, balancedT, countT]⟩
          · simp
        | ident s =>
          rw [parseOrLoop] at h
          · cases h
            exact ⟨[], rfl, by simp [loopShape, balancedT, countT]⟩
          · simp
        | star =>
          rw [parseOrLoop] at h
          · cases h
            exact ⟨[], rfl, by simp [loopShape, balancedT, countT]⟩
          · simp
        | amp =>
          rw [parseOrLoop] at h
          · cases h
            exact ⟨[], rfl, by simp [loopShape, balancedT, countT]⟩
          · simp
        | lpar =>
          rw [parseOrLoop] at h
          · cases h
            exact ⟨[], rfl, by simp [loopShape, balancedT, countT]⟩
          · simp
        | rpar =>
          rw [parseOrLoop] at h
          · cases h
            exact ⟨[], rfl, by simp [loopShape, balancedT, countT]⟩
          · simp
    have hOr : ∀ ts e rem, parseOr (fuel + 1) ts = some (e, rem) →
        ∃ pre, ts = pre ++ rem ∧ goodShape pre := by
      intro ts e rem h
      rw [parseOr] at h
      rcases hat : parseAnd fuel ts with _ | ⟨a, rest⟩
      · rw [hat] at h
        cases h
      · rw [hat] at h
        rcases ihAnd ts a rest hat with ⟨p1, rfl, hg1⟩
        rcases ihOrLoop a rest e rem h with ⟨p2, rfl, hg2⟩
        exact ⟨p1 ++ p2, by simp, goodShape_append_loop p1 p2 hg1 hg2⟩
    exact ⟨hAtom, hMulLoop, hMul, hAndLoop, hAnd, hOrLoop, hOr⟩


theorem charTok_paren_count (c : Char) (hop : (isOpChar c || c = '*') = true) :
    ((if charTok c = Tok.lpar then (1 : ℕ) else 0) = if c = '(' then 1 else 0) ∧
    ((if charTok c = Tok.rpar then (1 : ℕ) else 0) = if c = ')' then 1 else 0) := by
  simp only [isOpChar, Bool.or_eq_true, decide_eq_true_eq] at hop
  rcases hop with ((((rfl | rfl) | rfl) | rfl) | rfl) <;> exact ⟨by decide, by decide⟩

/-- A successful full parse means the token list itself is nonempty,
ends in a number, a name or `)`, and is paren-balanced. -/
theorem pyParse_shape (s : List Char) (e : Expr) (h : pyParse s = some e) :
    ∃ toks, tokenize s = some toks ∧ goodShape toks := by
  unfold pyParse at h
  rcases htk : tokenize s with _ | toks
  · rw [htk] at h
    cases h
  · rw [htk] at h
    simp only [Bind.bind, Option.bind] at h
    rcases hpo : parseOr (8 * toks.length + 8) toks with _ | ⟨e1, rem⟩
    · rw [hpo] at h
      cases h
    · rw [hpo] at h
      rcases rem with _ | ⟨r, rs⟩
      · rcases (parse_shape (8 * toks.length + 8)).2.2.2.2.2.2 toks e1 [] hpo with
          ⟨pre, hpre, hg⟩
        rw [List.append_nil] at hpre
        exact ⟨toks, rfl, hpre ▸ hg⟩
      · cases h

/-! ## Parenthesis counting through the tokenizer -/

theorem isOpChar_false_of_opstar_false (x : Char)
    (h : (isOpChar x || x = '*') = false) : isOpChar x = false := by
  cases hx : isOpChar x
  · rfl
  · rw [hx] at h
    simp at h

theorem ne_op_of_not_op (x c : Char) (hx : isOpChar x = false)
    (hc : isOpChar c = true) : (x = c) = False :=
  eq_false (by rintro rfl; rw [hx] at hc; cases hc)

theorem not_paren_of_not_op (c : Char) (h : isOpChar c = false) :
    (c = '(') = False ∧ (c = ')') = False :=
  ⟨ne_op_of_not_op c '(' h (by decide), ne_op_of_not_op c ')' h (by decide)⟩

theorem countC_op_no_op (c : Char) (hc : isOpChar c = true) (a : List Char)
    (ha : ∀ x ∈ a, isOpChar x = false) : countC c a = 0 :=
  countC_eq_zero c a (fun x hx => ne_op_of_not_op x c (ha x hx) hc)

theorem digit_not_op (x : Char) (h : x.isDigit = true) : isOpChar x = false :=
  isOpChar_false_of_opstar_false x (digit_char_class x h).2.1

theorem idCont_not_op (x : Char) (h : idCont x = true) : isOpChar x = false := by
  cases hx : isOpChar x
  · rfl
  · have h2 := (opstar_char_class x (by rw [hx]; rfl)).2.2.1
    rw [h] at h2
    cases h2

/-- The number of `(` and `)` tokens produced by a successful tokenization
equals the number of `(` and `)` characters of the input: no other branch of
the scanner consumes a parenthesis. -/
theorem tokenize_count (n : ℕ) : ∀ p : List Char, p.length ≤ n →
    ∀ tp, tokenize p = some tp →
    countT Tok.lpar tp = countC '(' p ∧ countT Tok.rpar tp = countC ')' p := by
  induction n with
  | zero =>
    intro p hp tp htp
    have hp0 : p = [] := by
      cases p
      · rfl
      · simp at hp
    subst hp0
    cases htp
    exact ⟨rfl, rfl⟩
  | succ n ih =>
    intro p hp tp htp
    rcases p with _ | ⟨c, cs⟩
    · cases htp
      exact ⟨rfl, rfl⟩
    · have hcs : cs.length ≤ n := by
        simp only [List.length_cons] at hp
        omega
      by_cases hws : isWs c = true
      · rw [tokenize_ws c cs hws] at htp
        rcases ih cs hcs tp htp with ⟨h1, h2⟩
        have hopc := isOpChar_false_of_opstar_false c (ws_char_class c hws).2.2.2.2
        rcases not_paren_of_not_op c hopc with ⟨hc1, hc2⟩
        refine ⟨?_, ?_⟩
        · rw [countC_cons, h1]
          simp [hc1]
        · rw [countC_cons, h2]
          simp [hc2]
      · simp only [Bool.not_eq_true] at hws
        by_cases hop : (isOpChar c || c = '*') = true
        · rw [tokenize_opstar c cs hws hop] at htp
          rcases hrec : tokenize cs with _ | ts
          · rw [hrec] at htp
            cases htp
          · rw [hrec] at htp
            simp only [Option.map_some', Option.some.injEq] at htp
            subst htp
            rcases ih cs hcs ts hrec with ⟨h1, h2⟩
            have hcnt := charTok_paren_count c hop
            refine ⟨?_, ?_⟩
            · rw [countT_cons, countC_cons, h1, hcnt.1]
            · rw [countT_cons, countC_cons, h2, hcnt.2]
        · simp only [Bool.not_eq_true] at hop
          by_cases hid : idStart c = true
          · rw [tokenize_idStart c cs hws hop hid] at htp
            by_cases hkw : (c :: cs.takeWhile idCont).asString ∈ pyKeywords
            · rw [if_pos hkw] at htp
              cases htp
            · rw [if_neg hkw] at htp
              rcases hrec : tokenize (cs.dropWhile idCont) with _ | ts
              · rw [hrec] at htp
                cases htp
              · rw [hrec] at htp
                simp only [Option.map_some', Option.some.injEq] at htp
                subst htp
                have hlen : (cs.dropWhile idCont).length ≤ n :=
                  le_trans (List.Sublist.length_le (List.dropWhile_sublist _)) hcs
                rcases ih _ hlen ts hrec with ⟨h1, h2⟩
                have hskip : ∀ pc, isOpChar pc = true →
                    countC pc (c :: cs) = countC pc (cs.dropWhile idCont) := by
                  intro pc hpc
                  conv_lhs => rw [show (c :: cs) =
                    c :: (cs.takeWhile idCont ++ cs.dropWhile idCont) by
                      rw [List.takeWhile_append_dropWhile]]
                  rw [countC_cons, countC_append]
                  rw [countC_op_no_op pc hpc _
                    (fun x hx => idCont_not_op x (mem_takeWhile_ws _ _ hx))]
                  simp only [ne_op_of_not_op c pc (isOpChar_false_of_opstar_false c hop) hpc]
                  simp
                refine ⟨?_, ?_⟩
                · rw [countT_cons, hskip '(' (by decide), h1]
                  simp
                · rw [countT_cons, hskip ')' (by decide), h2]
                  simp
          · simp only [Bool.not_eq_true] at hid
            by_cases hdg : c.isDigit = true
            · rw [tokenize_digit c cs hws hop hid hdg] at htp
              by_cases hdot : ((cs.dropWhile Char.isDigit).headD ' ') = '.'
              · rw [if_pos hdot] at htp
                rcases hrec : tokenize
                    ((cs.dropWhile Char.isDigit).tail.dropWhile Char.isDigit)
                    with _ | ts
                · rw [hrec] at htp
                  cases htp
                · rw [hrec] at htp
                  simp only [Option.map_some', Option.some.injEq] at htp
                  subst htp
                  have hq : ((cs.dropWhile Char.isDigit).tail.dropWhile
                      Char.isDigit).Sublist cs :=
                    ((List.dropWhile_sublist _).trans
                      (List.tail_sublist _)).trans (List.dropWhile_sublist _)
                  rcases ih _ (le_trans hq.length_le hcs) ts hrec with ⟨h1, h2⟩
                  obtain ⟨dtail, hdd⟩ :
                      ∃ dtail, cs.dropWhile Char.isDigit = '.' :: dtail := by
                    rcases hcase : cs.dropWhile Char.isDigit with _ | ⟨d, dt⟩
                    · rw [hcase] at hdot
                      exact absurd hdot (by decide)
                    · rw [hcase] at hdot
                      simp only [List.headD_cons] at hdot
                      exact ⟨dt, by rw [hdot]⟩
                  rw [hdd] at h1 h2
                  simp only [List.tail_cons] at h1 h2
                  have hskip : ∀ pc, isOpChar pc = true →
                      countC pc (c :: cs) =
                        countC pc (dtail.dropWhile Char.isDigit) := by
                    intro pc hpc
                    conv_lhs => rw [show (c :: cs) =
                      c :: (cs.takeWhile Char.isDigit ++ cs.dropWhile Char.isDigit) by
                        rw [List.takeWhile_append_dropWhile]]
                    rw [hdd]
                    conv_lhs => rw [show dtail =
                      dtail.takeWhile Char.isDigit ++ dtail.dropWhile Char.isDigit by
                        rw [List.takeWhile_append_dropWhile]]
                    rw [countC_cons, countC_append, countC_cons, countC_append]
                    rw [countC_op_no_op pc hpc _
                      (fun x hx => digit_not_op x (mem_takeWhile_ws _ _ hx))]
                    rw [countC_op_no_op pc hpc _
                      (fun x hx => digit_not_op x (mem_takeWhile_ws _ _ hx))]
                    simp only [ne_op_of_not_op c pc (isOpChar_false_of_opstar_false c hop) hpc]
                    simp only [ne_op_of_not_op '.' pc (by decide) hpc]
                    simp
                  refine ⟨?_, ?_⟩
                  · rw [countT_cons, hskip '(' (by decide), h1]
                    simp
                  · rw [countT_cons, hskip ')' (by decide), h2]
                    simp
              · rw [if_neg hdot] at htp
                rcases hrec : tokenize (cs.dropWhile Char.isDigit) with _ | ts
                · rw [hrec] at htp
                  cases htp
                · rw [hrec] at htp
                  simp only [Option.map_some', Option.some.injEq] at htp
                  subst htp
                  have hlen : (cs.dropWhile Char.isDigit).length ≤ n :=
                    le_trans (List.Sublist.length_le (List.dropWhile_sublist _)) hcs
                  rcases ih _ hlen ts hrec with ⟨h1, h2⟩
                  have hskip : ∀ pc, isOpChar pc = true →
                      countC pc (c :: cs) =
                        countC pc (cs.dropWhile Char.isDigit) := by
                    intro pc hpc
                    conv_lhs => rw [show (c :: cs) =
                      c :: (cs.takeWhile Char.isDigit ++ cs.dropWhile Char.isDigit) by
                        rw [List.takeWhile_append_dropWhile]]
                    rw [countC_cons, countC_append]
                    rw [countC_op_no_op pc hpc _
                      (fun x hx => digit_not_op x (mem_takeWhile_ws _ _ hx))]
                    simp only [ne_op_of_not_op c pc (isOpChar_false_of_opstar_false c hop) hpc]
                    simp
                  refine ⟨?_, ?_⟩
                  · rw [countT_cons, hskip '(' (by decide), h1]
                    simp
                  · rw [countT_cons, hskip ')' (by decide), h2]
                    simp
            · simp only [Bool.not_eq_true] at hdg
              by_cases hdc : c = '.'
              · subst hdc
                rw [tokenize_dot '.' cs hws hop hid hdg rfl] at htp
                by_cases hemp : (cs.takeWhile Char.isDigit).isEmpty
                · rw [if_pos hemp] at htp
                  cases htp
                · rw [if_neg hemp] at htp
                  rcases hrec : tokenize (cs.dropWhile Char.isDigit) with _ | ts
                  · rw [hrec] at htp
                    cases htp
                  · rw [hrec] at htp
                    simp only [Option.map_some', Option.some.injEq] at htp
                    subst htp
                    have hlen : (cs.dropWhile Char.isDigit).length ≤ n :=
                      le_trans (List.Sublist.length_le (List.dropWhile_sublist _)) hcs
                    rcases ih _ hlen ts hrec with ⟨h1, h2⟩
                    have hskip : ∀ pc, isOpChar pc = true →
                        countC pc ('.' :: cs) =
                          countC pc (cs.dropWhile Char.isDigit) := by
                      intro pc hpc
                      conv_lhs => rw [show ('.' :: cs) =
                        '.' :: (cs.takeWhile Char.isDigit ++ cs.dropWhile Char.isDigit) by
                          rw [List.takeWhile_append_dropWhile]]
                      rw [countC_cons, countC_append]
                      rw [countC_op_no_op pc hpc _
                        (fun x hx => digit_not_op x (mem_takeWhile_ws _ _ hx))]
                      simp only [ne_op_of_not_op '.' pc (by decide) hpc]
                      simp
                    refine ⟨?_, ?_⟩
                    · rw [countT_cons, hskip '(' (by decide), h1]
                      simp
                    · rw [countT_cons, hskip ')' (by decide), h2]
                      simp
              · rw [tokenize_bad c cs hws hop hid hdg (eq_false hdc)] at htp
                cases htp

theorem tokenize_paren_count (s : List Char) (tp : List Tok)
    (h : tokenize s = some tp) :
    countT Tok.lpar tp = countC '(' s ∧ countT Tok.rpar tp = countC ')' s :=
  tokenize_count s.length s le_rfl tp h


/-! ## The `+` character dooms the fragment checks -/

theorem mem_splitOnOps (s : List Char) (c : Char) (hc : isOpChar c = false)
    (h : c ∈ s) : ∃ p ∈ splitOnOps s, c ∈ p := by
  induction s with
  | nil => simp at h
  | cons d ds ih =>
    rw [splitOnOps]
    by_cases hd : isOpChar d = true
    · rw [if_pos hd]
      rcases List.mem_cons.mp h with rfl | h2
      · rw [hd] at hc
        cases hc
      · rcases ih h2 with ⟨p, hp, hcp⟩
        exact ⟨p, List.mem_cons_of_mem _ hp, hcp⟩
    · rw [if_neg hd]
      rcases hsp : splitOnOps ds with _ | ⟨f, fs⟩
      · exact absurd hsp (splitOnOps_ne_nil ds)
      · rcases List.mem_cons.mp h with rfl | h2
        · exact ⟨c :: f, by simp [List.modifyHead], List.mem_cons_self _ _⟩
        · rcases ih h2 with ⟨p, hp, hcp⟩
          rw [hsp] at hp
          rcases List.mem_cons.mp hp with rfl | hp2
          · exact ⟨d :: p, by simp [List.modifyHead], List.mem_cons_of_mem _ hcp⟩
          · exact ⟨p, by simp [List.modifyHead, hp2], hcp⟩

theorem mem_splitOnStar (s : List Char) (c : Char) (hc : ¬ c = '*')
    (h : c ∈ s) : ∃ p ∈ splitOnStar s, c ∈ p := by
  induction s with
  | nil => simp at h
  | cons d ds ih =>
    rw [splitOnStar]
    by_cases hd : d = '*'
    · rw [if_pos hd]
      rcases List.mem_cons.mp h with rfl | h2
      · exact absurd hd hc
      · rcases ih h2 with ⟨p, hp, hcp⟩
        exact ⟨p, List.mem_cons_of_mem _ hp, hcp⟩
    · rw [if_neg hd]
      rcases hsp : splitOnStar ds with _ | ⟨f, fs⟩
      · exact absurd hsp (splitOnStar_ne_nil ds)
      · rcases List.mem_cons.mp h with rfl | h2
        · exact ⟨c :: f, by simp [List.modifyHead], List.mem_cons_self _ _⟩
        · rcases ih h2 with ⟨p, hp, hcp⟩
          rw [hsp] at hp
          rcases List.mem_cons.mp hp with rfl | hp2
          · exact ⟨d :: p, by simp [List.modifyHead], List.mem_cons_of_mem _ hcp⟩
          · exact ⟨p, by simp [List.modifyHead, hp2], hcp⟩

theorem mem_strip (p : List Char) (c : Char) (hws : isWs c = false)
    (h : c ∈ p) : c ∈ strip p := by
  rcases strip_decomp p with ⟨a, b, hdec, ha, hb⟩
  rw [hdec] at h
  simp only [List.mem_append] at h
  rcases h with (h | h) | h
  · rw [ha c h] at hws
    cases hws
  · exact h
  · rw [hb c h] at hws
    cases hws

theorem mem_fragmentsOf (s : List Char) (c : Char) (hop : isOpChar c = false)
    (hws : isWs c = false) (h : c ∈ s) : ∃ f ∈ fragmentsOf s, c ∈ f := by
  rcases mem_splitOnOps s c hop h with ⟨p, hp, hcp⟩
  have hstrip : c ∈ strip p := mem_strip p c hws hcp
  refine ⟨strip p, ?_, hstrip⟩
  unfold fragmentsOf
  rw [List.mem_filter]
  refine ⟨List.mem_map_of_mem strip hp, ?_⟩
  rcases hsp : strip p with _ | ⟨x, xs⟩
  · rw [hsp] at hstrip
    simp at hstrip
  · rfl

theorem getLastD_cons_of_ne {α : Type} (a d : α) (l : List α) (h : l ≠ []) :
    (a :: l).getLastD d = l.getLastD d := by
  rcases l with _ | ⟨b, l2⟩
  · exact absurd rfl h
  · rfl

theorem mem_split_lastD (l : List (List Char)) (x : List Char) (h : x ∈ l) :
    x ∈ l.dropLast ∨ x = l.getLastD [] := by
  induction l with
  | nil => simp at h
  | cons a l ih =>
    rcases l with _ | ⟨b, l2⟩
    · rcases List.mem_cons.mp h with rfl | h2
      · exact Or.inr rfl
      · simp at h2
    · rcases List.mem_cons.mp h with rfl | h2
      · left
        rw [List.dropLast_cons₂]
        exact List.mem_cons_self _ _
      · rcases ih h2 with hd | he
        · left
          rw [List.dropLast_cons₂]
          exact List.mem_cons_of_mem _ hd
        · right
          rw [getLastD_cons_of_ne a [] (b :: l2) (by simp)]
          exact he

/-- A fragment containing `+` fails `_get_identifiers`: no `*`-piece holding
`+` is decimal, and the trailing piece is not an identifier. -/
theorem checkFrag_plus (f : List Char) (h : '+' ∈ f) :
    checkFrag f = .error .exprErr := by
  rcases mem_splitOnStar f '+' (by decide) h with ⟨p, hp, hcp⟩
  have hps : '+' ∈ strip p := mem_strip p '+' (by decide) hcp
  have hmem : strip p ∈ (splitOnStar f).map strip := List.mem_map_of_mem strip hp
  simp only [checkFrag]
  by_cases hall : ((splitOnStar f).map strip).dropLast.all isDecimalish = true
  · rw [if_pos hall]
    have hrhs : strip p = ((splitOnStar f).map strip).getLastD [] := by
      rcases mem_split_lastD _ _ hmem with hlhs | hr
      · have hd := List.all_eq_true.mp hall _ hlhs
        rcases decimalish_chars _ hd '+' hps with h1 | h1
        · exact absurd h1 (by decide)
        · exact absurd h1 (by decide)
      · exact hr
    rw [← hrhs]
    have hne : (strip p).isEmpty = false := by
      rcases hsp : strip p with _ | ⟨x, xs⟩
      · rw [hsp] at hps
        simp at hps
      · rfl
    rw [if_neg (by simp [hne])]
    have hni : isIdentifier (strip p) = false := by
      rcases hsp : strip p with _ | ⟨x, xs⟩
      · rfl
      · rw [hsp] at hps
        simp only [isIdentifier]
        rcases List.mem_cons.mp hps with rfl | h2
        · rw [show idStart '+' = false from by decide]
          rfl
        · cases hst : idStart x
          · rfl
          · simp only [Bool.true_and]
            cases hac : xs.all idCont
            · rfl
            · have := List.all_eq_true.mp hac '+' h2
              exact absurd this (by decide)
    rw [if_neg (by simp [hni])]
  · rw [if_neg hall]

theorem idsOfFrags_mem_error (fs : List (List Char)) (f : List Char)
    (hf : f ∈ fs) (herr : checkFrag f = .error .exprErr) :
    ∃ e, idsOfFrags fs = .error e := by
  induction fs with
  | nil => simp at hf
  | cons g gs ih =>
    rcases hcg : checkFrag g with err | o
    · exact ⟨err, by rw [idsOfFrags]; simp only [Bind.bind, Except.bind, hcg]⟩
    · rcases List.mem_cons.mp hf with rfl | h2
      · rw [herr] at hcg
        cases hcg
      · rcases ih h2 with ⟨e, he⟩
        exact ⟨e, by rw [idsOfFrags]; simp only [Bind.bind, Except.bind, hcg, he]⟩

/-! ## Every `_get_identifiers` failure is the expression error -/

theorem checkFrag_error_kind (f : List Char) (e : CErr)
    (h : checkFrag f = .error e) : e = .exprErr := by
  simp only [checkFrag] at h
  split_ifs at h <;> cases h <;> rfl

theorem idsOfFrags_error_kind : ∀ (fs : List (List Char)) (e : CErr),
    idsOfFrags fs = .error e → e = .exprErr := by
  intro fs
  induction fs with
  | nil =>
    intro e h
    cases h
  | cons f fs ih =>
    intro e h
    rw [idsOfFrags] at h
    rcases hcf : checkFrag f with err | o
    · rw [hcf] at h
      simp only [Bind.bind, Except.bind, Except.error.injEq] at h
      subst h
      exact checkFrag_error_kind f err hcf
    · rw [hcf] at h
      simp only [Bind.bind, Except.bind] at h
      rcases hrest : idsOfFrags fs with err | rest
      · rw [hrest] at h
        simp only [Except.error.injEq] at h
        subst h
        exact ih err hrest
      · rw [hrest] at h
        cases h

theorem getIdentifiers_error_kind (s : List Char) (e : CErr)
    (h : getIdentifiers s = .error e) : e = .exprErr := by
  unfold getIdentifiers at h
  rcases hids : idsOfFrags (fragmentsOf s) with err | ids
  · rw [hids] at h
    simp only [Bind.bind, Except.bind, Except.error.injEq] at h
    subst h
    exact idsOfFrags_error_kind _ err hids
  · rw [hids] at h
    simp only [Bind.bind, Except.bind] at h
    by_cases hps : (pyParse s).isSome
    · rw [if_pos hps] at h
      cases h
    · rw [if_neg hps] at h
      injection h with h2
      exact h2.symm

theorem getIdentifiers_ok_parse (s : List Char) (ids : List String)
    (h : getIdentifiers s = .ok ids) : (pyParse s).isSome = true := by
  unfold getIdentifiers at h
  rcases hids : idsOfFrags (fragmentsOf s) with err | ids0
  · rw [hids] at h
    simp [Bind.bind, Except.bind] at h
  · rw [hids] at h
    simp only [Bind.bind, Except.bind] at h
    by_cases hps : (pyParse s).isSome
    · exact hps
    · rw [if_neg hps] at h
      cases h

theorem construct_getIdentifiers_error (s : List Char) (err : CErr)
    (h : getIdentifiers s = .error err) : construct s = .error err := by
  simp only [construct, Bind.bind, Except.bind, h]


/-! ## Malformed strings are rejected (claim C9) -/

/-- Claim C9: malformed combination strings are rejected with the
expression-error kind (`LoadCombinationExpressionError`) and never silently
succeed: (a) any string containing a `+`; (b) any string whose `(` and `)`
counts differ (unbalanced parentheses); (c) any string whose last
non-whitespace character is a dangling `&` or `|`.  In each case
`Combination` construction fails with exactly the expression error. -/
theorem c9_malformed_rejected (s : List Char) :
    ('+' ∈ s → construct s = .error .exprErr) ∧
    (countC '(' s ≠ countC ')' s → construct s = .error .exprErr) ∧
    (∀ s0 c0 w, s = s0 ++ c0 :: w → (c0 = '&' ∨ c0 = '|') →
      (∀ x ∈ w, isWs x = true) → construct s = .error .exprErr) := by
  have herrCase : ∀ err, getIdentifiers s = .error err →
      construct s = .error .exprErr := by
    intro err hgi
    have hk := getIdentifiers_error_kind s err hgi
    subst hk
    exact construct_getIdentifiers_error s _ hgi
  refine ⟨?_, ?_, ?_⟩
  · intro hplus
    rcases mem_fragmentsOf s '+' (by decide) (by decide) hplus with ⟨f, hf, hpf⟩
    rcases idsOfFrags_mem_error _ f hf (checkFrag_plus f hpf) with ⟨e, he⟩
    refine herrCase e ?_
    unfold getIdentifiers
    simp only [Bind.bind, Except.bind, he]
  · intro hcount
    rcases hgi : getIdentifiers s with err | ids
    · exact herrCase err hgi
    · exfalso
      have hps := getIdentifiers_ok_parse s ids hgi
      rcases Option.isSome_iff_exists.mp hps with ⟨e, hpe⟩
      rcases pyParse_shape s e hpe with ⟨toks, htk, _, _, hbal⟩
      rcases tokenize_paren_count s toks htk with ⟨h1, h2⟩
      exact hcount (by rw [← h1, ← h2]; exact hbal)
  · intro s0 c0 w hs hc0 hw
    rcases hgi : getIdentifiers s with err | ids
    · exact herrCase err hgi
    · exfalso
      have hps := getIdentifiers_ok_parse s ids hgi
      rcases Option.isSome_iff_exists.mp hps with ⟨e, hpe⟩
      rcases pyParse_shape s e hpe with ⟨toks, htk, hne, ⟨t, hlast, hend⟩, _⟩
      have hop : (isOpChar c0 || c0 = '*') = true := by
        rcases hc0 with rfl | rfl <;> decide
      have hbrk := tokenize_append_break s0 w c0 hop
      rw [tokenize_all_ws w hw, ← hs, htk] at hbrk
      rcases ht0 : tokenize s0 with _ | t0
      · rw [ht0, tokCat_none_left] at hbrk
        cases hbrk
      · rw [ht0] at hbrk
        simp only [tokCat, Option.some.injEq] at hbrk
        subst hbrk
        rw [getLast?_append_right t0 [charTok c0] (by simp)] at hlast
        rw [show ([charTok c0]).getLast? = some (charTok c0) from rfl] at hlast
        injection hlast with h2
        subst h2
        rcases hc0 with rfl | rfl <;> exact absurd hend (by decide)

/-- Witness for `c9_malformed_rejected`: the strings `"1.2*D + 1.6*L"`
(plus in place of an operator), `"(1.2*D & 1.6*L"` (unbalanced
parenthesis) and `"1.2*D &"` (dangling AND) are each rejected with the
expression error. -/
theorem c9_malformed_rejected_witness :
    construct "1.2*D + 1.6*L".toList = .error .exprErr ∧
    construct "(1.2*D & 1.6*L".toList = .error .exprErr ∧
    construct "1.2*D &".toList = .error .exprErr :=
  ⟨(c9_malformed_rejected "1.2*D + 1.6*L".toList).1 (by decide),
   (c9_malformed_rejected "(1.2*D & 1.6*L".toList).2.1 (by decide),
   (c9_malformed_rejected "1.2*D &".toList).2.2 "1.2*D ".toList '&' []
     (by decide) (Or.inl rfl) (by decide)⟩

end Ceng
